import Mathlib

/-!
Verification development for the `cotengra` contraction-path search library,
covering the hyper-optimizer driver (`hyper.py`) and the two greedy hypergraph
path finders (`path_greedy.py`).

Conventions of the embedding:
* Index labels and node ids are modelled as natural numbers; Python's sorted
  order on labels corresponds to the order on `ℕ`.
* Python `dict`s are modelled as insertion-ordered association lists
  (`List (κ × α)`), matching Python 3 dict iteration-order semantics.
* `hashlib.sha1(pickle.dumps(x))` is modelled as an injective encoding of the
  canonicalized data `x`: two hash strings are equal exactly when the
  canonical structures are equal.  A `sortedtuple` taken just before hashing
  is modelled as the `Multiset` it canonically represents (the sorted tuple
  and the multiset of entries are in bijection).
* Fallible Python code (raising `StopIteration`, `KeyError`, `IndexError`,
  `TypeError`) is modelled with `Except String`.
* Real-valued components (`math.log2`, `math.log`, the Gumbel jitter from
  `random.uniform`) are modelled over `ℚ`, with the log functions and the
  jitter stream passed in as parameters: the algorithms only combine these
  values arithmetically and by comparison, and none of the claims below
  depend on particular float values.
-/

namespace Cotengra

/-- Decidable equality for `Except`, needed to evaluate the `Except String`
results of the embedded fallible operations on concrete inputs. -/
instance {ε α : Type} [DecidableEq ε] [DecidableEq α] : DecidableEq (Except ε α) := fun a b =>
  match a, b with
  | .ok x, .ok y =>
    if h : x = y then .isTrue (by rw [h]) else .isFalse (by intro hc; cases hc; exact h rfl)
  | .error x, .error y =>
    if h : x = y then .isTrue (by rw [h]) else .isFalse (by intro hc; cases hc; exact h rfl)
  | .ok _, .error _ => .isFalse (by intro hc; cases hc)
  | .error _, .ok _ => .isFalse (by intro hc; cases hc)

/-- Association-list lookup: first entry whose key matches (Python `d[k]` /
`k in d` on an insertion-ordered dict). -/
def alistLookup {α : Type} : List (ℕ × α) → ℕ → Option α
  | [], _ => none
  | (k, v) :: rest, h => if k = h then some v else alistLookup rest h

/-- Association-list store: overwrite the entry if the key is present,
otherwise append a fresh entry at the end (Python `d[k] = v`). -/
def alistStore {α : Type} : List (ℕ × α) → ℕ → α → List (ℕ × α)
  | [], h, v => [(h, v)]
  | (k, w) :: rest, h, v => if k = h then (k, v) :: rest else (k, w) :: alistStore rest h v

/-- First-occurrence deduplication, the semantics of `cotengra.utils.oset`
and of iterating a Python set built by successive insertion. -/
def odedup {α : Type} [DecidableEq α] : List α → List α
  | [] => []
  | a :: rest => a :: (odedup rest).filter (fun x => decide (x ≠ a))

section Hashing

/-- A dimension size as a Python runtime value: either a native `int` or a
foreign integer type (e.g. `numpy.int64`) that is numerically equal but
pickles differently.  Modelled from the spec's note that foreign numeric
types do not hash consistently with native integers. -/
inductive PyNum where
  | int (n : ℕ)
  | npint (n : ℕ)
deriving DecidableEq

/-- The numeric value of a size entry. -/
def PyNum.val : PyNum → ℕ
  | .int n => n
  | .npint n => n

/-- Python `isinstance(v, int)`. -/
def PyNum.isInt : PyNum → Bool
  | .int _ => true
  | .npint _ => false

/-- Python `int(v)`: coercion to a native integer. -/
def PyNum.toInt (v : PyNum) : PyNum := .int v.val

/-- `{k: int(v) for k, v in size_dict.items()}`. -/
def coerceSizes (sd : List (ℕ × PyNum)) : List (ℕ × PyNum) :=
  sd.map fun kv => (kv.1, kv.2.toInt)

/-- The `hash_method` argument of `ReusableHyperOptimizer` ('a' or 'b'). -/
inductive HashMethod where
  | a
  | b
deriving DecidableEq

/-- The canonical data that `ReusableHyperOptimizer._hash_args` pickles and
SHA1-hashes.  Each `sortedtuple` is modelled as the multiset it represents;
the outer tuple of mode-'a' inputs keeps operand order, exactly as
`tuple(map(sortedtuple, inputs))` does. -/
inductive HKey where
  | modeA (inputs : List (Multiset ℕ)) (output : Multiset ℕ) (sizes : Multiset (ℕ × PyNum))
  | modeB (edges : Multiset (Multiset ℤ)) (sizes : Multiset (ℕ × PyNum))
deriving DecidableEq

/-- Append one incidence record `v` to the entry of index `ix` in the
insertion-ordered edge map (`edges[ix].append(v)` on a `defaultdict(list)`). -/
def pushIncidence : List (ℕ × List ℤ) → ℕ → ℤ → List (ℕ × List ℤ)
  | [], ix, v => [(ix, [v])]
  | (k, l) :: m, ix, v =>
    if k = ix then (k, l ++ [v]) :: m else (k, l) :: pushIncidence m ix v

/-- The `edges` defaultdict of `_hash_args` mode 'b': every output index gets
a `-1` incidence, then every occurrence of an index in operand `i` records
`i`, in iteration order. -/
def buildEdges (inputs : List (List ℕ)) (output : List ℕ) : List (ℕ × List ℤ) :=
  let m := output.foldl (fun m ix => pushIncidence m ix (-1)) []
  inputs.enum.foldl
    (fun m it => it.2.foldl (fun m2 ix => pushIncidence m2 ix (it.1 : ℤ)) m) m

/-- `canonical_edges = sortedtuple(map(sortedtuple, edges.values()))`,
modelled as the multiset of incidence multisets. -/
def canonicalEdges (inputs : List (List ℕ)) (output : List ℕ) : Multiset (Multiset ℤ) :=
  ((buildEdges inputs output).map (fun kv => ((kv.2 : List ℤ) : Multiset ℤ)) : List (Multiset ℤ))

namespace ReusableHyperOptimizer

/-- `ReusableHyperOptimizer._hash_args`.  `next(iter(size_dict.values()))` on
an empty dict raises `StopIteration`; if the first value is not a native int
every value is coerced with `int`; then the canonical structure for the
selected hash mode is built and (modelled) hashed. -/
def hash_args (method : HashMethod) (inputs : List (List ℕ)) (output : List ℕ)
    (size_dict : List (ℕ × PyNum)) : Except String HKey :=
  match size_dict.head? with
  | none => .error "StopIteration"
  | some first =>
    let sd := if first.2.isInt then size_dict else coerceSizes size_dict
    match method with
    | .a =>
      .ok (.modeA (inputs.map (fun t => (t : Multiset ℕ))) (output : Multiset ℕ)
        ((sd : List (ℕ × PyNum)) : Multiset (ℕ × PyNum)))
    | .b =>
      .ok (.modeB (canonicalEdges inputs output)
        ((sd : List (ℕ × PyNum)) : Multiset (ℕ × PyNum)))

end ReusableHyperOptimizer

/-- The value cached per solved problem: the linear path and the sliced
indices (`{'path': ..., 'sliced_inds': ...}`). -/
structure PathResult where
  path : List (ℕ × ℕ)
  sliced_inds : List ℕ
deriving DecidableEq

/-- Association list keyed by `HKey`, the model of the `DiskDict` cache. -/
def cacheLookup : List (HKey × PathResult) → HKey → Option PathResult
  | [], _ => none
  | (k, v) :: rest, h => if k = h then some v else cacheLookup rest h

/-- Store into the cache (overwrite or append, like `self._cache[h] = ...`). -/
def cacheStore : List (HKey × PathResult) → HKey → PathResult → List (HKey × PathResult)
  | [], h, v => [(h, v)]
  | (k, w) :: rest, h, v => if k = h then (k, v) :: rest else (k, w) :: cacheStore rest h v

/-- The persistent parts of a `ReusableHyperOptimizer`: its cache, flags, and
an instrumentation counter `nruns` that counts every execution of
`_compute_path` (each of which constructs and runs a fresh
`HyperOptimizer`). -/
structure ReusableState where
  cache : List (HKey × PathResult)
  overwrite : Bool
  hash_method : HashMethod
  nruns : ℕ
deriving DecidableEq

namespace ReusableHyperOptimizer

/-- `_hash_and_query`: hash the problem and report whether a fresh search is
needed (`overwrite or h not in cache`). -/
def hash_and_query (st : ReusableState) (inputs : List (List ℕ)) (output : List ℕ)
    (size_dict : List (ℕ × PyNum)) : Except String (HKey × Bool) := do
  let h ← hash_args st.hash_method inputs output size_dict
  .ok (h, st.overwrite || (cacheLookup st.cache h).isNone)

/-- `ReusableHyperOptimizer.__call__`.  The search itself (`_compute_path`,
which builds a fresh `HyperOptimizer` and runs `_search`) is an external
collaborator here, passed in as `compute`; it receives the problem and the
current run counter.  On a miss (or with `overwrite` set) the fresh result is
stored and the freshly stored path is returned; on a hit the cached path is
returned unchanged. -/
def call (compute : List (List ℕ) → List ℕ → List (ℕ × PyNum) → ℕ → PathResult)
    (st : ReusableState) (inputs : List (List ℕ)) (output : List ℕ)
    (size_dict : List (ℕ × PyNum)) : Except String (ReusableState × List (ℕ × ℕ)) := do
  let hm ← hash_and_query st inputs output size_dict
  let h := hm.1
  if hm.2 then
    let res := compute inputs output size_dict st.nruns
    let st' : ReusableState := ⟨cacheStore st.cache h res, st.overwrite, st.hash_method, st.nruns + 1⟩
    match cacheLookup st'.cache h with
    | some r => .ok (st', r.path)
    | none => .error "KeyError"
  else
    match cacheLookup st.cache h with
    | some r => .ok (st, r.path)
    | none => .error "KeyError"

end ReusableHyperOptimizer

end Hashing

section TrialPipeline

/-- Modelled from the spec: the external cost-model object (`ContractionTree`
in `cotengra.core`, not under `src/`).  Per §6 it exposes `total_flops()`,
`total_write()`, `max_size()` and a clearable memoization set
`already_optimized`; the mutating operations (`slice_`,
`subtree_reconfigure_`, ...) are arbitrary tree transformations supplied as
parameters where they are used. -/
structure Tree where
  total_flops : ℚ
  total_write : ℚ
  max_size : ℚ
  already_optimized : List ℕ
deriving DecidableEq

/-- The per-trial record (a Python dict): the tree plus its cost metrics,
with the optionally present `original_*` snapshot fields. -/
structure Trial where
  tree : Tree
  flops : ℚ
  write : ℚ
  size : ℚ
  original_flops : Option ℚ
  original_write : Option ℚ
  original_size : Option ℚ
deriving DecidableEq

/-- `find_tree` (hyper.py): run the registered path finder (the resulting
tree is the parameter here) and record its three cost metrics. -/
def find_tree (tree : Tree) : Trial :=
  ⟨tree, tree.total_flops, tree.total_write, tree.max_size, none, none, none⟩

/-- The three `trial.setdefault('original_*', tree.total_*())` lines shared
verbatim by `SlicedTrialFn`, `ReconfTrialFn` and `SlicedReconfTrialFn`. -/
def setdefaultOriginals (trial : Trial) : Trial :=
  { trial with
    original_flops := some (trial.original_flops.getD trial.tree.total_flops)
    original_write := some (trial.original_write.getD trial.tree.total_write)
    original_size := some (trial.original_size.getD trial.tree.max_size) }

/-- `SlicedTrialFn`: the inner trial function plus the external
`tree.slice_(**opts)` mutation (a tree transformation parameter). -/
structure SlicedTrialFn (α : Type) where
  trial_fn : α → Trial
  slice_op : Tree → Tree

/-- `SlicedTrialFn.__call__`: run the inner trial, snapshot originals, mutate
the tree by slicing, then refresh `flops`/`write`/`size` from the mutated
tree.  Note: this wrapper does not touch `already_optimized`. -/
def SlicedTrialFn.call {α : Type} (w : SlicedTrialFn α) (x : α) : Trial :=
  let trial := w.trial_fn x
  let trial := setdefaultOriginals trial
  let tree := w.slice_op trial.tree
  { trial with
    tree := tree
    flops := tree.total_flops
    write := tree.total_write
    size := tree.max_size }

/-- `ReconfTrialFn`: inner trial function, the `forested` flag, and the two
external reconfiguration mutations. -/
structure ReconfTrialFn (α : Type) where
  trial_fn : α → Trial
  forested : Bool
  reconf_forest_op : Tree → Tree
  reconf_op : Tree → Tree

/-- `ReconfTrialFn.__call__`: run the inner trial, snapshot originals,
reconfigure (forested or not), clear `tree.already_optimized`, then refresh
the metrics from the mutated tree. -/
def ReconfTrialFn.call {α : Type} (w : ReconfTrialFn α) (x : α) : Trial :=
  let trial := w.trial_fn x
  let trial := setdefaultOriginals trial
  let tree := if w.forested then w.reconf_forest_op trial.tree else w.reconf_op trial.tree
  let tree := { tree with already_optimized := [] }
  { trial with
    tree := tree
    flops := tree.total_flops
    write := tree.total_write
    size := tree.max_size }

/-- `SlicedReconfTrialFn`: inner trial function, the `forested` flag, and the
two external slice-and-reconfigure mutations. -/
structure SlicedReconfTrialFn (α : Type) where
  trial_fn : α → Trial
  forested : Bool
  slice_reconf_forest_op : Tree → Tree
  slice_reconf_op : Tree → Tree

/-- `SlicedReconfTrialFn.__call__`: like `ReconfTrialFn.__call__` but with
the interleaved slice-and-reconfigure mutations. -/
def SlicedReconfTrialFn.call {α : Type} (w : SlicedReconfTrialFn α) (x : α) : Trial :=
  let trial := w.trial_fn x
  let trial := setdefaultOriginals trial
  let tree := if w.forested then w.slice_reconf_forest_op trial.tree
    else w.slice_reconf_op trial.tree
  let tree := { tree with already_optimized := [] }
  { trial with
    tree := tree
    flops := tree.total_flops
    write := tree.total_write
    size := tree.max_size }

end TrialPipeline

section HyperOptimizerModel

/-- The `minimize` argument of `HyperOptimizer.__init__`: either one of the
named score functions (a string) or a user-supplied callable taking the
trial record. -/
inductive MinimizeArg where
  | str (s : String)
  | fn (f : Trial → ℚ)

/-- Whether the pattern occurs as a contiguous sublist (Python
`pat in s` on strings). -/
def beginsWith : List Char → List Char → Bool
  | _, [] => true
  | [], _ :: _ => false
  | a :: s, b :: t => a == b && beginsWith s t

/-- Substring membership on character lists. -/
def containsSub : List Char → List Char → Bool
  | [], pat => pat.isEmpty
  | c :: s, pat => beginsWith (c :: s) pat || containsSub s pat

/-- `'compressed' in minimize` (hyper.py line 310): defined for strings; for
a callable, Python's `in` operator raises
`TypeError: argument of type 'function' is not iterable`. -/
def minimizeContainsCompressed : MinimizeArg → Except String Bool
  | .str s => .ok (containsSub s.data "compressed".data)
  | .fn _ => .error "TypeError"

/-- The parts of `HyperOptimizer.__init__` state that depend on `minimize`:
the resolved score function (the `minimize` property setter, which accepts a
callable directly and otherwise calls the external `get_score_fn`) and the
`compressed` flag computed by `'compressed' in minimize`. -/
structure HyperMinimizeState where
  score_fn : Trial → ℚ
  compressed : Bool

/-- The `minimize`-handling prefix of `HyperOptimizer.__init__` (lines
309-310): first the property setter `self.minimize = minimize` resolves the
score function (external `get_score_fn` passed as a parameter), then
`self.compressed = ('compressed' in minimize)` — which raises `TypeError`
when `minimize` is a callable, aborting construction. -/
def HyperOptimizer.init_minimize (get_score_fn : String → (Trial → ℚ))
    (minimize : MinimizeArg) : Except String HyperMinimizeState := do
  let score_fn := match minimize with
    | .fn f => f
    | .str s => get_score_fn s
  let c ← minimizeContainsCompressed minimize
  .ok ⟨score_fn, c⟩

/-- A trial as seen by the assessment loop of `HyperOptimizer._search`: the
tree with the three cost metrics and the score computed worker-side by
`ComputeScore`. -/
structure RTrial where
  tree : Tree
  flops : ℚ
  write : ℚ
  size : ℚ
  score : ℚ
deriving DecidableEq

/-- The assessment-loop state of `HyperOptimizer._search`: the append-only
cost/score history and the best record.  `best` starts as
`{'score': inf, ...}`, modelled by `none` (score `⊤`). -/
structure SearchState where
  costs_flops : List ℚ
  costs_write : List ℚ
  costs_size : List ℚ
  scores : List ℚ
  best : Option RTrial

/-- The score of the current best record, `⊤` for the initial infinite
placeholder. -/
def bestScoreOf : Option RTrial → WithTop ℚ
  | none => ⊤
  | some b => (b.score : WithTop ℚ)

/-- One iteration of the trial-assessment loop in `HyperOptimizer._search`
(lines 512-527): append the trial's costs and score to the history, and
replace `best` when `trial['score'] < self.best['score']`.  (The progress
bar and the `best['params']` bookkeeping, which do not affect any tracked
quantity, are omitted.) -/
def assess_trial (st : SearchState) (t : RTrial) : SearchState :=
  { costs_flops := st.costs_flops ++ [t.flops]
    costs_write := st.costs_write ++ [t.write]
    costs_size := st.costs_size ++ [t.size]
    scores := st.scores ++ [t.score]
    best := if (t.score : WithTop ℚ) < bestScoreOf st.best then some t else st.best }

/-- The whole assessment loop over the sequence of trials actually produced
(sequential or parallel generator, possibly cut short by the time limit). -/
def assess_trials (st : SearchState) (ts : List RTrial) : SearchState :=
  ts.foldl assess_trial st

/-- The sequence of best scores observed after each trial of a run. -/
def best_score_seq : SearchState → List RTrial → List (WithTop ℚ)
  | _, [] => []
  | st, t :: ts => bestScoreOf (assess_trial st t).best :: best_score_seq (assess_trial st t) ts

end HyperOptimizerModel

section HashingLemmas

theorem cacheLookup_cacheStore_self (c : List (HKey × PathResult)) (h : HKey) (v : PathResult) :
    cacheLookup (cacheStore c h v) h = some v := by
  induction c with
  | nil => simp [cacheStore, cacheLookup]
  | cons kv rest ih =>
    by_cases hk : kv.1 = h
    · simp [cacheStore, hk, cacheLookup]
    · simpa [cacheStore, hk, cacheLookup] using ih

/-- Coerced sizes only depend on keys and numeric values. -/
theorem coerceSizes_eq_map_val (sd : List (ℕ × PyNum)) :
    coerceSizes sd = (sd.map (fun kv => (kv.1, kv.2.val))).map (fun kv => (kv.1, PyNum.int kv.2)) := by
  rw [List.map_map]
  rfl

theorem coerceSizes_eq_self_of_allInt :
    ∀ sd : List (ℕ × PyNum), sd.all (fun kv => kv.2.isInt) = true → coerceSizes sd = sd
  | [], _ => rfl
  | (k, PyNum.int n) :: rest, h => by
    have h2 : rest.all (fun kv => kv.2.isInt) = true := by
      rw [List.all_cons, Bool.and_eq_true] at h
      exact h.2
    show (k, (PyNum.int n).toInt) :: coerceSizes rest = (k, PyNum.int n) :: rest
    rw [coerceSizes_eq_self_of_allInt rest h2]
    rfl
  | (k, PyNum.npint n) :: rest, h => by
    rw [List.all_cons] at h
    simp [PyNum.isInt] at h

/-- The coercion guard of `_hash_args` actually works as intended: either
every size is already a native int, or the first one is foreign so that the
wholesale coercion fires. -/
def coercionSound (sd : List (ℕ × PyNum)) : Bool :=
  sd.all (fun kv => kv.2.isInt) ||
    (match sd.head? with
     | some f => !f.2.isInt
     | none => false)

theorem hash_args_coerce (m : HashMethod) (inputs : List (List ℕ)) (output : List ℕ)
    (sd : List (ℕ × PyNum)) (hne : sd ≠ []) (hsound : coercionSound sd = true) :
    ReusableHyperOptimizer.hash_args m inputs output sd =
      ReusableHyperOptimizer.hash_args m inputs output (coerceSizes sd) := by
  cases sd with
  | nil => exact absurd rfl hne
  | cons f rest =>
    by_cases hf : f.2.isInt
    · -- no coercion on the left; but then every value must be native
      have hall : (f :: rest).all (fun kv => kv.2.isInt) = true := by
        rcases Bool.or_eq_true_iff.mp hsound with h | h
        · exact h
        · simp [hf] at h
      have hid : coerceSizes (f :: rest) = f :: rest :=
        coerceSizes_eq_self_of_allInt _ hall
      rw [hid]
    · -- coercion fires on the left; the right-hand head is a native int
      cases hv : f.2 with
      | int n => exact absurd (by rw [hv]; rfl) hf
      | npint n =>
        cases m <;>
          simp [ReusableHyperOptimizer.hash_args, coerceSizes, hv, PyNum.isInt, PyNum.toInt,
            PyNum.val]

end HashingLemmas

section RelabelingLemmas

/-- Apply a relabeling of index labels to the inputs. -/
def relabelInputs (π : ℕ → ℕ) (inputs : List (List ℕ)) : List (List ℕ) :=
  inputs.map (List.map π)

/-- Apply a relabeling of index labels to the size dictionary. -/
def relabelSizes (π : ℕ → ℕ) (sd : List (ℕ × PyNum)) : List (ℕ × PyNum) :=
  sd.map (fun kv => (π kv.1, kv.2))

/-- Rename the keys of an edge map. -/
def mapKeys (π : ℕ → ℕ) (m : List (ℕ × List ℤ)) : List (ℕ × List ℤ) :=
  m.map (fun kv => (π kv.1, kv.2))

theorem pushIncidence_mapKeys (π : ℕ → ℕ) (hπ : Function.Injective π)
    (m : List (ℕ × List ℤ)) (ix : ℕ) (v : ℤ) :
    pushIncidence (mapKeys π m) (π ix) v = mapKeys π (pushIncidence m ix v) := by
  induction m with
  | nil => simp [pushIncidence, mapKeys]
  | cons kv rest ih =>
    by_cases hk : kv.1 = ix
    · simp [mapKeys, pushIncidence, hk]
    · have hk2 : ¬ (π kv.1 = π ix) := fun hc => hk (hπ hc)
      simp [mapKeys, pushIncidence, hk, hk2] at ih ⊢
      exact ih

theorem foldl_pushIncidence_mapKeys (π : ℕ → ℕ) (hπ : Function.Injective π)
    (labels : List ℕ) (v : ℤ) (m : List (ℕ × List ℤ)) :
    (labels.map π).foldl (fun m2 ix => pushIncidence m2 ix v) (mapKeys π m) =
      mapKeys π (labels.foldl (fun m2 ix => pushIncidence m2 ix v) m) := by
  induction labels generalizing m with
  | nil => rfl
  | cons a rest ih =>
    simp only [List.map_cons, List.foldl_cons]
    rw [pushIncidence_mapKeys π hπ]
    exact ih _

theorem buildEdges_relabel (π : ℕ → ℕ) (hπ : Function.Injective π)
    (inputs : List (List ℕ)) (output : List ℕ) :
    buildEdges (relabelInputs π inputs) (output.map π) =
      mapKeys π (buildEdges inputs output) := by
  unfold buildEdges
  have h0 : (output.map π).foldl (fun m ix => pushIncidence m ix (-1)) [] =
      mapKeys π (output.foldl (fun m ix => pushIncidence m ix (-1)) []) := by
    have := foldl_pushIncidence_mapKeys π hπ output (-1) []
    simpa [mapKeys] using this
  rw [h0]
  have henum : (relabelInputs π inputs).enum = inputs.enum.map (fun it => (it.1, it.2.map π)) := by
    unfold relabelInputs
    rw [List.enum_map]
    rfl
  rw [henum]
  generalize output.foldl (fun m ix => pushIncidence m ix (-1)) [] = m0
  induction inputs.enum generalizing m0 with
  | nil => rfl
  | cons it rest ih =>
    simp only [List.map_cons, List.foldl_cons]
    rw [foldl_pushIncidence_mapKeys π hπ it.2 (it.1 : ℤ) m0]
    exact ih _

theorem canonicalEdges_relabel (π : ℕ → ℕ) (hπ : Function.Injective π)
    (inputs : List (List ℕ)) (output : List ℕ) :
    canonicalEdges (relabelInputs π inputs) (output.map π) = canonicalEdges inputs output := by
  unfold canonicalEdges
  rw [buildEdges_relabel π hπ]
  unfold mapKeys
  rw [List.map_map]
  rfl

/-- Evaluation of mode-'b' `_hash_args` on a non-empty size dictionary. -/
theorem hash_args_cons_b (inputs : List (List ℕ)) (output : List ℕ) (f : ℕ × PyNum)
    (rest : List (ℕ × PyNum)) :
    ReusableHyperOptimizer.hash_args .b inputs output (f :: rest) =
      .ok (.modeB (canonicalEdges inputs output)
        (((if f.2.isInt then f :: rest else coerceSizes (f :: rest)) : List (ℕ × PyNum)) :
          Multiset (ℕ × PyNum))) := rfl

end RelabelingLemmas

section GreedyModels

/-- The combine-rule names accepted by `_binary_combine` in
`path_greedy.py` (`'sum' | 'mean' | 'max' | 'min' | 'diff'`). -/
inductive Combine where
  | csum
  | cmean
  | cmax
  | cmin
  | cdiff
deriving DecidableEq

/-- `_binary_combine` (path_greedy.py lines 120-130). -/
def binary_combine : Combine → ℚ → ℚ → ℚ
  | .csum, x, y => x + y
  | .cmean, x, y => (x + y) / 2
  | .cmax, x, y => max x y
  | .cmin, x, y => min x y
  | .cdiff, x, y => |x - y|

/-- Modelled from the spec: the external hypergraph object (§6, implemented
in `cotengra.core`, not under `src/`).  Nodes are stored as an
insertion-ordered association list from node id to incident edge labels,
edge sizes as a total map, and `fresh` is the next SSA node id handed out by
`contract` ("each subsequent pair produces a new id equal to the next unused
integer", §3). -/
structure Hypergraph where
  nodes : List (ℕ × List ℕ)
  sizes : ℕ → ℕ
  output : List ℕ
  fresh : ℕ

namespace Hypergraph

/-- Iterating `hg.nodes` (dict keys in insertion order). -/
def nodeIds (hg : Hypergraph) : List ℕ := hg.nodes.map Prod.fst

/-- `get_num_nodes()`. -/
def get_num_nodes (hg : Hypergraph) : ℕ := hg.nodes.length

/-- `has_node(i)`. -/
def has_node (hg : Hypergraph) (i : ℕ) : Bool := hg.nodeIds.contains i

/-- `get_node(i)`: the edges incident to node `i`. -/
def get_node (hg : Hypergraph) (i : ℕ) : List ℕ := (alistLookup hg.nodes i).getD []

/-- `get_edge(e)`: the nodes an edge touches, in node order. -/
def edgeNodes (hg : Hypergraph) (e : ℕ) : List ℕ :=
  (hg.nodes.filter (fun nv => nv.2.contains e)).map Prod.fst

/-- Iterating `hg.edges` (the distinct edge labels, in appearance order). -/
def edgeList (hg : Hypergraph) : List ℕ := odedup (hg.nodes.map Prod.snd).flatten

/-- `node_size(i)`: the product of the node's edge sizes. -/
def node_size (hg : Hypergraph) (i : ℕ) : ℕ := ((hg.get_node i).map hg.sizes).prod

/-- `neighbors(i)`: nodes sharing at least one edge with `i`. -/
def neighbors (hg : Hypergraph) (i : ℕ) : List ℕ :=
  odedup (((hg.get_node i).map hg.edgeNodes).flatten.filter (fun x => decide (x ≠ i)))

/-- `bond_size(i, j)`: the product of the sizes of the shared edges. -/
def bond_size (hg : Hypergraph) (i j : ℕ) : ℕ :=
  (((hg.get_node i).filter (fun e => (hg.get_node j).contains e)).map hg.sizes).prod

/-- `output_nodes()`: the nodes touching an output edge. -/
def output_nodes (hg : Hypergraph) : List ℕ :=
  (hg.nodes.filter (fun nv => nv.2.any (fun e => hg.output.contains e))).map Prod.fst

/-- The edges of the node produced by contracting `a` and `b`: the union of
the two incidence lists, minus edges visible to no other node and not in the
output (those are summed away). -/
def contractInds (hg : Hypergraph) (a b : ℕ) : List ℕ :=
  let ka := hg.get_node a
  let kb := hg.get_node b
  (ka ++ kb.filter (fun e => !ka.contains e)).filter
    (fun e => hg.output.contains e ||
      (hg.edgeNodes e).any (fun x => decide (x ≠ a) && decide (x ≠ b)))

/-- `contract(a, b) -> new_id`: remove the two nodes and append a fresh node
carrying the contracted incidence list.  Contracting a missing node (or a
node with itself) raises `KeyError`, as popping it twice would in Python. -/
def contract (hg : Hypergraph) (a b : ℕ) : Except String (ℕ × Hypergraph) :=
  if a = b then .error "KeyError"
  else if hg.has_node a && hg.has_node b then
    .ok (hg.fresh,
      ⟨(hg.nodes.filter (fun nv => decide (nv.1 ≠ a) && decide (nv.1 ≠ b))) ++
        [(hg.fresh, hg.contractInds a b)],
        hg.sizes, hg.output, hg.fresh + 1⟩)
  else .error "KeyError"

/-- `compress(chi, edges)`: cap the size of each listed edge at `chi`
(modelled from the spec's `compress(cap, edges)` contract; the node
structure is untouched). -/
def compress (hg : Hypergraph) (chi : ℕ) (edges : List ℕ) : Hypergraph :=
  { hg with sizes := fun e =>
      if edges.contains e && decide (chi < hg.sizes e) then chi else hg.sizes e }

/-- `candidate_contraction_size(a, b[, chi])`: the size of the node that the
contraction of `a` and `b` would produce, optionally with every edge capped
at `chi`. -/
def candidate_contraction_size (hg : Hypergraph) (a b : ℕ) (chi : Option ℕ) : ℕ :=
  ((hg.contractInds a b).map (fun e =>
    match chi with
    | some c => min (hg.sizes e) c
    | none => hg.sizes e)).prod

/-- `neighbor_edges(i)`: the edges of `i` shared with at least one other
node. -/
def neighbor_edges (hg : Hypergraph) (i : ℕ) : List ℕ :=
  (hg.get_node i).filter (fun e => (hg.edgeNodes e).any (fun x => decide (x ≠ i)))

/-- Modelled from the spec: `simple_centrality()` returns a graph-structural
score per node (§6); modelled as the node's neighbor count.  The greedy
algorithms only read these values through scores and argmax/argmin. -/
def simple_centrality (hg : Hypergraph) : ℕ → ℚ := fun i => ((hg.neighbors i).length : ℚ)

/-- One step of seed-set expansion along neighbors. -/
def expandOnce (hg : Hypergraph) (s : List ℕ) : List ℕ :=
  odedup (s ++ (s.map hg.neighbors).flatten)

/-- The nodes within `k` hops of the seed set. -/
def reachSets (hg : Hypergraph) (seeds : List ℕ) : ℕ → List ℕ
  | 0 => odedup seeds
  | k + 1 => hg.expandOnce (hg.reachSets seeds k)

/-- Modelled from the spec: `simple_distance(seeds, p)` returns a distance
mapping (§6); modelled as the hop distance to the seed set, with the number
of nodes plus one as the unreached sentinel.  The exponent `p` only
reweights distances and is not modelled; no claim below depends on the
distance values themselves. -/
def simple_distance (hg : Hypergraph) (seeds : List ℕ) (_p : ℚ) : ℕ → ℚ := fun i =>
  match (List.range (hg.get_num_nodes + 1)).find?
      (fun k => (hg.reachSets seeds k).contains i) with
  | some k => (k : ℚ)
  | none => ((hg.get_num_nodes + 1 : ℕ) : ℚ)

end Hypergraph

/-- `get_hypergraph(inputs, output, size_dict)`: node `i` carries the edge
labels of operand `i`; fresh SSA ids start at `len(inputs)`. -/
def get_hypergraph (inputs : List (List ℕ)) (output : List ℕ) (size_dict : ℕ → ℕ) :
    Hypergraph :=
  ⟨inputs.enum, size_dict, output, inputs.length⟩

/-- The real-valued environment of the greedy searches: `math.log2` on
integer sizes, `math.log` on subgraph sizes, and the stream of `gumbel()`
samples (one fresh sample per call, indexed by a running counter). -/
structure GCEnv where
  lg : ℕ → ℚ
  ln : ℚ → ℚ
  jit : ℕ → ℚ

/-- The constructor parameters of `GreedyCompressed`
(path_greedy.py lines 183-209). -/
structure GreedyCompressed where
  chi : ℕ
  coeff_size_compressed : ℚ
  coeff_size : ℚ
  coeff_size_inputs : ℚ
  score_size_inputs : Combine
  coeff_subgraph : ℚ
  score_subgraph : Combine
  coeff_centrality : ℚ
  centrality_combine : Combine
  score_centrality : Combine
  temperature : ℚ
  score_perm : List Char

/-- `GreedyCompressed._score` (lines 211-242): the six score components,
summed when `score_perm` is empty and otherwise selected per permutation
character into a lexicographically compared tuple (a plain float score is
embedded as the one-element tuple, which is order-isomorphic). -/
def GreedyCompressed.score (o : GreedyCompressed) (env : GCEnv) (hg : Hypergraph)
    (sgsizes sgcents : ℕ → ℚ) (rng : ℕ) (i1 i2 : ℕ) : List ℚ :=
  let size1 := hg.node_size i1
  let size2 := hg.node_size i2
  let old_size := hg.candidate_contraction_size i1 i2 none
  let new_size := hg.candidate_contraction_size i1 i2 (some o.chi)
  let scoreOf : Char → ℚ := fun c =>
    if c = 'R' then o.coeff_size_compressed * env.lg new_size
    else if c = 'O' then o.coeff_size * env.lg old_size
    else if c = 'I' then
      o.coeff_size_inputs * binary_combine o.score_size_inputs (env.lg size1) (env.lg size2)
    else if c = 'S' then
      o.coeff_subgraph * binary_combine o.score_subgraph (env.ln (sgsizes i1))
        (env.ln (sgsizes i2))
    else if c = 'L' then
      o.coeff_centrality * binary_combine o.score_centrality (sgcents i1) (sgcents i2)
    else if c = 'T' then max 0 o.temperature * env.jit rng
    else 0
  if o.score_perm = [] then
    [scoreOf 'R' + scoreOf 'O' + scoreOf 'I' + scoreOf 'S' + scoreOf 'L' + scoreOf 'T']
  else o.score_perm.map scoreOf

/-- Lexicographic strict comparison of score tuples (Python tuple `<`). -/
def qlistLt : List ℚ → List ℚ → Bool
  | [], [] => false
  | [], _ :: _ => true
  | _ :: _, [] => false
  | a :: s, b :: t => if a < b then true else if b < a then false else qlistLt s t

/-- Comparison of heap entries `(score, i1, i2)` (Python tuple `<`). -/
def candLt (c d : List ℚ × ℕ × ℕ) : Bool :=
  if qlistLt c.1 d.1 then true
  else if qlistLt d.1 c.1 then false
  else if c.2.1 < d.2.1 then true
  else if d.2.1 < c.2.1 then false
  else decide (c.2.2 < d.2.2)

/-- Remove a minimal element (w.r.t. `lt`) from a list: the model of
`heapq.heappop` on the heap's multiset of entries. -/
def popMinBy {α : Type} (lt : α → α → Bool) : List α → Option (α × List α)
  | [] => none
  | a :: rest =>
    match popMinBy lt rest with
    | none => some (a, [])
    | some mr => if lt mr.1 a then some (mr.1, a :: mr.2) else some (a, rest)

/-- `itertools.combinations(l, 2)`. -/
def combinations2 {α : Type} : List α → List (α × α)
  | [] => []
  | a :: rest => rest.map (fun b => (a, b)) ++ combinations2 rest

/-- The mutable state of `GreedyCompressed.ssa_path`: the hypergraph, the
candidate heap, the `sgsizes`/`sgcents` accumulators (dicts over SSA ids,
modelled as total maps since ids are never reused and stale entries are
unobservable), the jitter counter and the path built so far. -/
structure GCState where
  hg : Hypergraph
  candidates : List (List ℚ × ℕ × ℕ)
  sgsizes : ℕ → ℚ
  sgcents : ℕ → ℚ
  rng : ℕ
  ssapath : List (List ℕ)

/-- Score and push a batch of node pairs onto the candidate heap, consuming
one jitter sample per `_score` call. -/
def gcPushPairs (o : GreedyCompressed) (env : GCEnv) (hg : Hypergraph)
    (sgsizes sgcents : ℕ → ℚ) : List (ℕ × ℕ) → ℕ → List (List ℚ × ℕ × ℕ) →
      ℕ × List (List ℚ × ℕ × ℕ)
  | [], rng, acc => (rng, acc)
  | p :: ps, rng, acc =>
    gcPushPairs o env hg sgsizes sgcents ps (rng + 1)
      (acc ++ [(o.score env hg sgsizes sgcents rng p.1 p.2, p.1, p.2)])

/-- The body of one successful iteration of the `GreedyCompressed.ssa_path`
loop (lines 272-290): contract the pair, compress around the new node,
append the pair to the path, merge the accumulators (`sgsizes` by `+`,
`sgcents` by `centrality_combine`), then re-score every pair sharing an edge
with the new node. -/
def GreedyCompressed.contractStep (o : GreedyCompressed) (env : GCEnv) (st : GCState)
    (i1 i2 : ℕ) : Except String GCState := do
  let r ← st.hg.contract i1 i2
  let i12 := r.1
  let hg2 := r.2.compress o.chi (r.2.get_node i12)
  let sgsizes := Function.update st.sgsizes i12 (st.sgsizes i1 + st.sgsizes i2)
  let sgcents := Function.update st.sgcents i12
    (binary_combine o.centrality_combine (st.sgcents i1) (st.sgcents i2))
  let pairs := ((hg2.neighbor_edges i12).map (fun e => combinations2 (hg2.edgeNodes e))).flatten
  let rc := gcPushPairs o env hg2 sgsizes sgcents pairs st.rng st.candidates
  .ok ⟨hg2, rc.2, sgsizes, sgcents, rc.1, st.ssapath ++ [[i1, i2]]⟩

/-- Is the heap entry still valid (`hg.has_node(i1) and hg.has_node(i2)`)? -/
def candLive (hg : Hypergraph) (c : List ℚ × ℕ × ℕ) : Bool :=
  hg.has_node c.2.1 && hg.has_node c.2.2

/-- Pop the best still-valid candidate.  Python pops entries in score order
and skips (discards) stale ones; since node ids are never reused, an entry
that is stale now stays stale forever, so discarding all stale entries
up front and popping the minimum of the live ones is observationally the
same lazy-deletion behavior. -/
def gcPopBest (hg : Hypergraph) (cands : List (List ℚ × ℕ × ℕ)) :
    Option ((List ℚ × ℕ × ℕ) × List (List ℚ × ℕ × ℕ)) :=
  popMinBy candLt (cands.filter (candLive hg))

/-- The `while self.hg.get_num_nodes() > 2` loop of
`GreedyCompressed.ssa_path` (lines 259-290), with an explicit fuel bound
(one unit per contraction; `ssa_path` supplies `get_num_nodes()` which is
proven sufficient).  When no valid candidate remains the disconnected-graph
fallback `i1, i2, *_ = self.hg.nodes` picks the first two nodes. -/
def gcLoop (o : GreedyCompressed) (env : GCEnv) : ℕ → GCState → Except String GCState
  | 0, st => if st.hg.get_num_nodes ≤ 2 then .ok st else .error "fuel"
  | fuel + 1, st =>
    if st.hg.get_num_nodes ≤ 2 then .ok st
    else
      match gcPopBest st.hg st.candidates with
      | some cr => do
        let st' ← o.contractStep env { st with candidates := cr.2 } cr.1.2.1 cr.1.2.2
        gcLoop o env fuel st'
      | none =>
        match st.hg.nodeIds with
        | i1 :: i2 :: _ => do
          let st' ← o.contractStep env { st with candidates := [] } i1 i2
          gcLoop o env fuel st'
        | _ => .error "unreachable"

/-- `GreedyCompressed.ssa_path` (lines 244-294): build the hypergraph, seed
the accumulators and the candidate heap from every edge's node pairs, run
the contraction loop, then append the tuple of surviving nodes as the
closing step. -/
def GreedyCompressed.ssa_path (o : GreedyCompressed) (env : GCEnv) (inputs : List (List ℕ))
    (output : List ℕ) (size_dict : ℕ → ℕ) : Except String (List (List ℕ)) := do
  let hg := get_hypergraph inputs output size_dict
  let sgcents := hg.simple_centrality
  let sgsizes : ℕ → ℚ := fun _ => 1
  let pairs := (hg.edgeList.map (fun e => combinations2 (hg.edgeNodes e))).flatten
  let rc := gcPushPairs o env hg sgsizes sgcents pairs 0 []
  let stF ← gcLoop o env hg.get_num_nodes ⟨hg, rc.2, sgsizes, sgcents, rc.1, []⟩
  .ok (stF.ssapath ++ [stF.hg.nodeIds])

end GreedyModels

section SpanModel

/-- The `distance_steal` option of `GreedySpan` (`'' | 'abs' | 'rel'`). -/
inductive StealMode where
  | off
  | sabs
  | srel
deriving DecidableEq

/-- The `start` option of `GreedySpan` (`'max' | 'min'` or an explicit
starting collection). -/
inductive StartOpt where
  | smax
  | smin
  | sset (l : List ℕ)

/-- The constructor parameters of `GreedySpan`
(path_greedy.py lines 368-390). -/
structure GreedySpan where
  start : StartOpt
  coeff_connectivity : ℚ
  coeff_ndim : ℚ
  coeff_distance : ℚ
  coeff_next_centrality : ℚ
  connectivity_weight_bonds : Bool
  temperature : ℚ
  score_perm : List Char
  distance_p : ℚ
  distance_steal : StealMode

/-- The mutable state shared by `_check_candidate` and the absorption loop
of `GreedySpan.ssa_path`: the region, the candidate list, the merge-target
dict, the connectivity defaultdict (total map with default `0`), the
recorded merge sequence and the jitter counter. -/
structure SpanState where
  region : List ℕ
  candidates : List ℕ
  merges : List (ℕ × ℕ)
  connectivity : ℕ → ℚ
  seq : List (ℕ × ℕ)
  rng : ℕ

/-- `_check_candidate(i_surface, i_neighbor)` (lines 429-456): nothing
happens for region members; an already-assigned neighbor may have its merge
target stolen per the `distance_steal` rule (`'abs'`: strictly smaller
seed-distance; `'rel'`: strictly larger absolute distance gap); a new
neighbor is assigned and appended to the candidates; finally the neighbor's
connectivity accumulates the log2 bond size (or a plain count). -/
def GreedySpan.check_candidate (o : GreedySpan) (env : GCEnv) (hg : Hypergraph)
    (distances : ℕ → ℚ) (st : SpanState) (i_surface i_neighbor : ℕ) : SpanState :=
  if i_neighbor ∈ st.region then st
  else
    let st :=
      match alistLookup st.merges i_neighbor with
      | some i_current =>
        match o.distance_steal with
        | .sabs =>
          if distances i_surface < distances i_current then
            { st with merges := alistStore st.merges i_neighbor i_surface }
          else st
        | .srel =>
          if |distances i_surface - distances i_neighbor| >
              |distances i_current - distances i_neighbor| then
            { st with merges := alistStore st.merges i_neighbor i_surface }
          else st
        | .off => st
      | none =>
        { st with merges := alistStore st.merges i_neighbor i_surface
                  candidates := st.candidates ++ [i_neighbor] }
    if o.connectivity_weight_bonds then
      { st with
        connectivity := Function.update st.connectivity i_neighbor
          (st.connectivity i_neighbor + env.lg (hg.bond_size i_surface i_neighbor)) }
    else
      { st with
        connectivity := Function.update st.connectivity i_neighbor
          (st.connectivity i_neighbor + 1) }

/-- `_sorter(i)` (lines 458-470): the six score components, summed over
`'CNDLT'` when `score_perm` is empty and otherwise selected per permutation
character. -/
def GreedySpan.sorterScore (o : GreedySpan) (env : GCEnv) (inputs : List (List ℕ))
    (cents distances conn : ℕ → ℚ) (rng i : ℕ) : List ℚ :=
  let scoreOf : Char → ℚ := fun ch =>
    if ch = 'C' then o.coeff_connectivity * conn i
    else if ch = 'N' then o.coeff_ndim * ((inputs.getD i []).length : ℚ)
    else if ch = 'D' then o.coeff_distance * distances i
    else if ch = 'L' then o.coeff_next_centrality * cents i
    else if ch = 'T' then max 0 o.temperature * env.jit rng
    else if ch = 'I' then -(i : ℚ)
    else 0
  if o.score_perm = [] then
    [scoreOf 'C' + scoreOf 'N' + scoreOf 'D' + scoreOf 'L' + scoreOf 'T']
  else o.score_perm.map scoreOf

/-- Lexicographic non-strict comparison of score tuples. -/
def qlistLe (a b : List ℚ) : Bool := !(qlistLt b a)

/-- The sort order on `(key, candidate)` pairs used to model the stable
`candidates.sort(key=_sorter)`. -/
def spanKeyLe (a b : List ℚ × ℕ) : Prop := qlistLe a.1 b.1 = true

instance : DecidableRel spanKeyLe := fun a b =>
  inferInstanceAs (Decidable (qlistLe a.1 b.1 = true))

/-- Python's `max(keys, key=f)`: the first key attaining the maximum. -/
def argmaxBy (f : ℕ → ℚ) (l : List ℕ) : Option ℕ :=
  l.foldl (fun acc i =>
    match acc with
    | none => some i
    | some j => if f j < f i then some i else acc) none

/-- Python's `min(keys, key=f)`: the first key attaining the minimum. -/
def argminBy (f : ℕ → ℚ) (l : List ℕ) : Option ℕ :=
  l.foldl (fun acc i =>
    match acc with
    | none => some i
    | some j => if f i < f j then some i else acc) none

/-- The seed region of `GreedySpan.ssa_path` (lines 399-406): the output
nodes when the contraction has an output, else the single extreme-centrality
node, else the explicit starting set (an `oset`, hence deduplicated). -/
def GreedySpan.region0 (o : GreedySpan) (hg : Hypergraph) (cents : ℕ → ℚ) : List ℕ :=
  if hg.output ≠ [] then hg.output_nodes
  else
    match o.start with
    | .smax =>
      match argmaxBy cents hg.nodeIds with
      | some i => [i]
      | none => []
    | .smin =>
      match argminBy cents hg.nodeIds with
      | some i => [i]
      | none => []
    | .sset l => odedup l

/-- The seed-merging phase (lines 413-427): a single-node region starts with
no sequence, a two-node region with its one pair, and a larger region is
internally ordered by the external `opt_einsum.ssa_greedy_optimize` (the
`oracle` parameter), recording each merge both in `merges` and in the
sequence (reversed), with the merged node represented by its second
member's original id. -/
def spanSeedPhase (oracle : List (List ℕ) → List ℕ → (ℕ → ℕ) → List (ℕ × ℕ))
    (inputs : List (List ℕ)) (output : List ℕ) (size_dict : ℕ → ℕ)
    (region0 : List ℕ) : Except String (List (ℕ × ℕ) × List (ℕ × ℕ)) :=
  if region0.length = 1 then .ok ([], [])
  else if region0.length = 2 then
    match region0 with
    | [a, b] => .ok ([], [(a, b)])
    | _ => .error "unreachable"
  else do
    let res ← (oracle (region0.map (fun i => inputs.getD i [])) output size_dict).foldlM
      (fun (acc : List ℕ × List (ℕ × ℕ) × List (ℕ × ℕ)) pp =>
        match acc.1.get? pp.1, acc.1.get? pp.2 with
        | some a, some b =>
          .ok (acc.1 ++ [b], alistStore acc.2.1 a b, acc.2.2 ++ [(a, b)])
        | _, _ => (.error "IndexError" : Except String (List ℕ × List (ℕ × ℕ) × List (ℕ × ℕ))))
      (region0, [], [])
    .ok (res.2.1, res.2.2.reverse)

/-- The stably sorted candidate list of one absorption-loop iteration
(line 477), worst-to-best, with one jitter sample consumed per key
computation. -/
def spanSorted (o : GreedySpan) (env : GCEnv) (inputs : List (List ℕ))
    (cents distances : ℕ → ℚ) (st : SpanState) : List ℕ :=
  (List.insertionSort spanKeyLe (st.candidates.enum.map
    (fun ki => (o.sorterScore env inputs cents distances st.connectivity
      (st.rng + ki.1) ki.2, ki.2)))).map Prod.snd

/-- The state after popping the best candidate `i_surface` into the region
(lines 477-479). -/
def spanPopped (o : GreedySpan) (env : GCEnv) (inputs : List (List ℕ))
    (cents distances : ℕ → ℚ) (st : SpanState) (i_surface : ℕ) : SpanState :=
  { st with
    region := if i_surface ∈ st.region then st.region else st.region ++ [i_surface]
    candidates := (spanSorted o env inputs cents distances st).dropLast
    rng := st.rng + st.candidates.length }

/-- The state after re-checking every neighbor of the freshly absorbed node
(lines 480-481). -/
def spanAbsorbed (o : GreedySpan) (env : GCEnv) (hg : Hypergraph) (inputs : List (List ℕ))
    (cents distances : ℕ → ℚ) (st : SpanState) (i_surface : ℕ) : SpanState :=
  (hg.neighbors i_surface).foldl
    (fun s j => o.check_candidate env hg distances s i_surface j)
    (spanPopped o env inputs cents distances st i_surface)

/-- One iteration of the `while candidates` absorption loop (lines
477-482): stably sort the candidates by `_sorter`, pop the last (best) one,
add it to the region, re-check its neighbors, and record its merge
target. -/
def spanStep (o : GreedySpan) (env : GCEnv) (hg : Hypergraph) (inputs : List (List ℕ))
    (cents distances : ℕ → ℚ) (st : SpanState) : Except String SpanState :=
  match (spanSorted o env inputs cents distances st).getLast? with
  | none => .error "IndexError"
  | some i_surface =>
    match alistLookup
        (spanAbsorbed o env hg inputs cents distances st i_surface).merges i_surface with
    | none => .error "KeyError"
    | some tgt =>
      .ok { spanAbsorbed o env hg inputs cents distances st i_surface with
            seq := (spanAbsorbed o env hg inputs cents distances st i_surface).seq ++
              [(i_surface, tgt)] }

/-- The `while candidates` absorption loop (lines 476-482), with an explicit
fuel bound (`get_num_nodes()`, supplied by `run`, is proven sufficient since
the region grows by one node per iteration). -/
def spanLoop (o : GreedySpan) (env : GCEnv) (hg : Hypergraph) (inputs : List (List ℕ))
    (cents distances : ℕ → ℚ) : ℕ → SpanState → Except String SpanState
  | 0, st => if st.candidates = [] then .ok st else .error "fuel"
  | fuel + 1, st =>
    if st.candidates = [] then .ok st
    else spanStep o env hg inputs cents distances st >>=
      spanLoop o env hg inputs cents distances fuel

/-- `GreedySpan.ssa_path` up to (and including) the absorption loop: build
the hypergraph, centralities, seed region and distances, run the seed
phase, seed the candidates by checking every neighbor of the region, then
absorb until no candidates remain.  Returns the final state so that the
covered region is visible. -/
def GreedySpan.run (o : GreedySpan) (env : GCEnv)
    (oracle : List (List ℕ) → List ℕ → (ℕ → ℕ) → List (ℕ × ℕ))
    (inputs : List (List ℕ)) (output : List ℕ) (size_dict : ℕ → ℕ) :
    Except String SpanState := do
  let hg := get_hypergraph inputs output size_dict
  let cents := hg.simple_centrality
  let region0 := o.region0 hg cents
  let distances := hg.simple_distance region0 o.distance_p
  let ms ← spanSeedPhase oracle inputs output size_dict region0
  let st0 : SpanState := ⟨region0, [], ms.1, fun _ => 0, ms.2, 0⟩
  let st1 := region0.foldl (fun s i =>
    (hg.neighbors i).foldl (fun s2 j => o.check_candidate env hg distances s2 i j) s) st0
  spanLoop o env hg inputs cents distances hg.get_num_nodes st1

/-- `GreedySpan.ssa_path` (lines 392-493): run the span, reverse the
recorded sequence, and translate original node ids to SSA ids via the
running reassignment table. -/
def GreedySpan.ssa_path (o : GreedySpan) (env : GCEnv)
    (oracle : List (List ℕ) → List ℕ → (ℕ → ℕ) → List (ℕ × ℕ))
    (inputs : List (List ℕ)) (output : List ℕ) (size_dict : ℕ → ℕ) :
    Except String (List (ℕ × ℕ)) := do
  let stF ← o.run env oracle inputs output size_dict
  let seq := stF.seq.reverse
  let n := (get_hypergraph inputs output size_dict).get_num_nodes
  let res := seq.foldl
    (fun (acc : (ℕ → ℕ) × ℕ × List (ℕ × ℕ)) ij =>
      (Function.update acc.1 ij.2 acc.2.1, acc.2.1 + 1,
        acc.2.2 ++ [(acc.1 ij.1, acc.1 ij.2)]))
    (fun i => i, n, [])
  .ok res.2.2

/-- The seed region actually computed inside `GreedySpan.ssa_path`
(lines 399-406), as a function of the problem. -/
def spanRegion0 (o : GreedySpan) (inputs : List (List ℕ)) (output : List ℕ)
    (size_dict : ℕ → ℕ) : List ℕ :=
  o.region0 (get_hypergraph inputs output size_dict)
    (get_hypergraph inputs output size_dict).simple_centrality

/-- The seed-distance map actually computed inside `GreedySpan.ssa_path`
(line 410). -/
def spanDistances (o : GreedySpan) (inputs : List (List ℕ)) (output : List ℕ)
    (size_dict : ℕ → ℕ) : ℕ → ℚ :=
  (get_hypergraph inputs output size_dict).simple_distance
    (spanRegion0 o inputs output size_dict) o.distance_p

/-- The state entering the absorption loop: the seed region with every one
of its neighbors checked as a candidate (lines 472-474). -/
def spanSeedState (o : GreedySpan) (env : GCEnv) (inputs : List (List ℕ))
    (output : List ℕ) (size_dict : ℕ → ℕ)
    (ms : List (ℕ × ℕ) × List (ℕ × ℕ)) : SpanState :=
  (spanRegion0 o inputs output size_dict).foldl
    (fun s i =>
      ((get_hypergraph inputs output size_dict).neighbors i).foldl
        (fun s2 j => GreedySpan.check_candidate o env
          (get_hypergraph inputs output size_dict)
          (spanDistances o inputs output size_dict) s2 i j) s)
    ⟨spanRegion0 o inputs output size_dict, [], ms.1, fun _ => 0, ms.2, 0⟩

/-- Validity of an oracle-produced ssa path over `m` starting operands: each
pair refers to operands already produced (indices below the running operand
count, which grows by one per merge).  `opt_einsum.ssa_greedy_optimize`
always returns such a path. -/
def validOraclePath : ℕ → List (ℕ × ℕ) → Bool
  | _, [] => true
  | m, pp :: rest => decide (pp.1 < m) && decide (pp.2 < m) && validOraclePath (m + 1) rest

end SpanModel

section ExceptLemmas

@[simp] theorem except_bind_ok {ε α β : Type} (a : α) (f : α → Except ε β) :
    (Except.ok a >>= f) = f a := rfl

@[simp] theorem except_bind_error {ε α β : Type} (e : ε) (f : α → Except ε β) :
    ((Except.error e : Except ε α) >>= f) = Except.error e := rfl

end ExceptLemmas

section CallLemmas

/-- `ReusableHyperOptimizer.call` unfolded, once the hash of the problem is
known. -/
theorem ReusableHyperOptimizer.call_eq
    (compute : List (List ℕ) → List ℕ → List (ℕ × PyNum) → ℕ → PathResult)
    (st : ReusableState) (inputs : List (List ℕ)) (output : List ℕ)
    (size_dict : List (ℕ × PyNum)) (h : HKey)
    (hh : ReusableHyperOptimizer.hash_args st.hash_method inputs output size_dict = .ok h) :
    ReusableHyperOptimizer.call compute st inputs output size_dict =
      (if st.overwrite || (cacheLookup st.cache h).isNone then
        match cacheLookup
            (cacheStore st.cache h (compute inputs output size_dict st.nruns)) h with
        | some r =>
          .ok (⟨cacheStore st.cache h (compute inputs output size_dict st.nruns),
            st.overwrite, st.hash_method, st.nruns + 1⟩, r.path)
        | none => .error "KeyError"
      else
        match cacheLookup st.cache h with
        | some r => .ok (st, r.path)
        | none => .error "KeyError") := by
  rw [ReusableHyperOptimizer.call, ReusableHyperOptimizer.hash_and_query, hh]
  rfl

end CallLemmas

section AlistLemmas

theorem alistLookup_alistStore_self {α : Type} (m : List (ℕ × α)) (k : ℕ) (v : α) :
    alistLookup (alistStore m k v) k = some v := by
  induction m with
  | nil => simp [alistStore, alistLookup]
  | cons kv rest ih =>
    by_cases hk : kv.1 = k
    · simp [alistStore, hk, alistLookup]
    · simpa [alistStore, hk, alistLookup] using ih

/-- Lookup after store: the stored key reads back the new value, every other
key is untouched. -/
theorem alistLookup_alistStore {α : Type} (k : ℕ) (v : α) (k' : ℕ) :
    ∀ m : List (ℕ × α), alistLookup (alistStore m k v) k' =
      if k' = k then some v else alistLookup m k' := by
  intro m
  induction m with
  | nil =>
    by_cases h : k' = k
    · subst h
      simp [alistStore, alistLookup]
    · have h2 : k ≠ k' := fun hc => h hc.symm
      simp [alistStore, alistLookup, h, h2]
  | cons kv rest ih =>
    obtain ⟨k0, w⟩ := kv
    by_cases h0 : k0 = k
    · subst h0
      by_cases h : k' = k0
      · subst h
        simp [alistStore, alistLookup]
      · have h2 : k0 ≠ k' := fun hc => h hc.symm
        simp [alistStore, alistLookup, h, h2]
    · by_cases h' : k0 = k'
      · subst h'
        have h2 : ¬k0 = k := h0
        simp [alistStore, alistLookup, h0, h2]
      · simp [alistStore, alistLookup, h0, h', ih]

/-- Storing any entry preserves the presence of every present key. -/
theorem alistStore_isSome {α : Type} (m : List (ℕ × α)) (k : ℕ) (v : α) (k' : ℕ)
    (h : (alistLookup m k').isSome = true) :
    (alistLookup (alistStore m k v) k').isSome = true := by
  rw [alistLookup_alistStore]
  by_cases hk : k' = k
  · simp [hk]
  · simp [hk, h]

end AlistLemmas

section GreedyStepLemmas

/-- Evaluation of `Hypergraph.contract` when both nodes exist and differ. -/
theorem Hypergraph.contract_ok (hg : Hypergraph) (a b : ℕ) (hne : a ≠ b)
    (ha : hg.has_node a = true) (hb : hg.has_node b = true) :
    hg.contract a b = .ok (hg.fresh,
      ⟨(hg.nodes.filter (fun nv => decide (nv.1 ≠ a) && decide (nv.1 ≠ b))) ++
        [(hg.fresh, hg.contractInds a b)],
        hg.sizes, hg.output, hg.fresh + 1⟩) := by
  unfold Hypergraph.contract
  rw [if_neg hne, ha, hb]
  rfl

/-- C3 amended (helper-free statement piece): the result of
`GreedyCompressed.contractStep` on a valid pair, exposing the accumulator
merges. -/
theorem GreedyCompressed.contractStep_ok (o : GreedyCompressed) (env : GCEnv)
    (st : GCState) (i1 i2 : ℕ) (hne : i1 ≠ i2) (h1 : st.hg.has_node i1 = true)
    (h2 : st.hg.has_node i2 = true) :
    ∃ st', GreedyCompressed.contractStep o env st i1 i2 = .ok st' ∧
      st'.sgsizes st.hg.fresh = st.sgsizes i1 + st.sgsizes i2 ∧
      st'.sgcents st.hg.fresh =
        binary_combine o.centrality_combine (st.sgcents i1) (st.sgcents i2) ∧
      st'.ssapath = st.ssapath ++ [[i1, i2]] ∧
      st'.hg.nodes = (st.hg.nodes.filter
          (fun nv => decide (nv.1 ≠ i1) && decide (nv.1 ≠ i2))) ++
        [(st.hg.fresh, st.hg.contractInds i1 i2)] ∧
      st'.hg.fresh = st.hg.fresh + 1 ∧
      st'.candidates = (gcPushPairs o env st'.hg
        (Function.update st.sgsizes st.hg.fresh (st.sgsizes i1 + st.sgsizes i2))
        (Function.update st.sgcents st.hg.fresh
          (binary_combine o.centrality_combine (st.sgcents i1) (st.sgcents i2)))
        (((st'.hg.neighbor_edges st.hg.fresh).map
          (fun e => combinations2 (st'.hg.edgeNodes e))).flatten)
        st.rng st.candidates).2 := by
  unfold GreedyCompressed.contractStep
  rw [Hypergraph.contract_ok st.hg i1 i2 hne h1 h2, except_bind_ok]
  refine ⟨_, rfl, ?_, ?_, rfl, ?_, rfl, rfl⟩
  · simp [Function.update_same]
  · simp [Function.update_same]
  · rfl

end GreedyStepLemmas

section GCInvariant

theorem has_node_iff (hg : Hypergraph) (i : ℕ) : hg.has_node i = true ↔ i ∈ hg.nodeIds := by
  unfold Hypergraph.has_node
  simp

theorem filterTwo_map_fst (l : List (ℕ × List ℕ)) (a b : ℕ) :
    ((l.filter (fun nv => decide (nv.1 ≠ a) && decide (nv.1 ≠ b))).map Prod.fst) =
      (l.map Prod.fst).filter (fun x => decide (x ≠ a) && decide (x ≠ b)) := by
  induction l with
  | nil => rfl
  | cons kv rest ih =>
    by_cases h : (decide (kv.1 ≠ a) && decide (kv.1 ≠ b)) = true
    · simp only [List.filter_cons, List.map_cons, h, if_true]
      rw [ih]
    · simp only [List.filter_cons, List.map_cons, h, if_false]
      exact ih

theorem filter_ne_length (b : ℕ) : ∀ l : List ℕ, l.Nodup → b ∈ l →
    (l.filter (fun x => decide (x ≠ b))).length + 1 = l.length := by
  intro l
  induction l with
  | nil => intro _ hb; cases hb
  | cons x rest ih =>
    intro hnd hb
    rw [List.nodup_cons] at hnd
    by_cases hx : x = b
    · subst hx
      have hpx : decide (x ≠ x) = false := by simp
      rw [List.filter_cons, hpx]
      simp only [Bool.false_eq_true, if_false]
      have hrest : rest.filter (fun y => decide (y ≠ x)) = rest :=
        List.filter_eq_self.mpr (fun y hy => by
          have hyx : y ≠ x := fun hc => hnd.1 (hc ▸ hy)
          simpa using hyx)
      rw [hrest]
      simp
    · have hb' : b ∈ rest := by
        rcases List.mem_cons.mp hb with h | h
        · exact absurd h.symm hx
        · exact h
      have hpx : decide (x ≠ b) = true := by simpa using hx
      rw [List.filter_cons, hpx]
      simp only [if_true, List.length_cons]
      have := ih hnd.2 hb'
      omega

theorem filter_drop_left (a b : ℕ) (l : List ℕ) (ha : a ∉ l) :
    l.filter (fun x => decide (x ≠ a) && decide (x ≠ b)) =
      l.filter (fun x => decide (x ≠ b)) :=
  List.filter_congr (fun x hx => by
    have hxa : x ≠ a := fun hc => ha (hc ▸ hx)
    simp [hxa])

theorem filter_drop_right (a b : ℕ) (l : List ℕ) (hb : b ∉ l) :
    l.filter (fun x => decide (x ≠ a) && decide (x ≠ b)) =
      l.filter (fun x => decide (x ≠ a)) :=
  List.filter_congr (fun x hx => by
    have hxb : x ≠ b := fun hc => hb (hc ▸ hx)
    simp [hxb])

theorem filter_two_length (a b : ℕ) : ∀ l : List ℕ, l.Nodup → a ∈ l → b ∈ l → a ≠ b →
    (l.filter (fun x => decide (x ≠ a) && decide (x ≠ b))).length + 2 = l.length := by
  intro l
  induction l with
  | nil => intro _ ha; cases ha
  | cons x rest ih =>
    intro hnd ha hb hne
    rw [List.nodup_cons] at hnd
    by_cases hxa : x = a
    · subst hxa
      have hb' : b ∈ rest := by
        rcases List.mem_cons.mp hb with h | h
        · exact absurd h.symm hne
        · exact h
      have hpx : (decide (x ≠ x) && decide (x ≠ b)) = false := by simp
      rw [List.filter_cons, hpx]
      simp only [Bool.false_eq_true, if_false]
      rw [filter_drop_left x b rest hnd.1]
      have := filter_ne_length b rest hnd.2 hb'
      simp only [List.length_cons]
      omega
    · by_cases hxb : x = b
      · subst hxb
        have ha' : a ∈ rest := by
          rcases List.mem_cons.mp ha with h | h
          · exact absurd h.symm hxa
          · exact h
        have hpx : (decide (x ≠ a) && decide (x ≠ x)) = false := by simp
        rw [List.filter_cons, hpx]
        simp only [Bool.false_eq_true, if_false]
        rw [filter_drop_right a x rest hnd.1]
        have := filter_ne_length a rest hnd.2 ha'
        simp only [List.length_cons]
        omega
      · have ha' : a ∈ rest := by
          rcases List.mem_cons.mp ha with h | h
          · exact absurd h.symm hxa
          · exact h
        have hb' : b ∈ rest := by
          rcases List.mem_cons.mp hb with h | h
          · exact absurd h.symm hxb
          · exact h
        have hpx : (decide (x ≠ a) && decide (x ≠ b)) = true := by simp [hxa, hxb]
        rw [List.filter_cons, hpx]
        simp only [if_true, List.length_cons]
        have := ih hnd.2 ha' hb' hne
        omega

theorem combinations2_ne {α : Type} : ∀ l : List α, l.Nodup →
    ∀ p ∈ combinations2 l, p.1 ≠ p.2 := by
  intro l
  induction l with
  | nil => intro _ p hp; simp [combinations2] at hp
  | cons a rest ih =>
    intro h p hp
    rw [List.nodup_cons] at h
    rcases List.mem_append.mp hp with h1 | h2
    · obtain ⟨b, hb, rfl⟩ := List.mem_map.mp h1
      intro hc
      have hab : a = b := hc
      subst hab
      exact h.1 hb
    · exact ih h.2 p h2

theorem gcPushPairs_mem (o : GreedyCompressed) (env : GCEnv) (hg : Hypergraph)
    (ss sc : ℕ → ℚ) : ∀ (ps : List (ℕ × ℕ)) (rng : ℕ) (acc : List (List ℚ × ℕ × ℕ))
    (c : List ℚ × ℕ × ℕ), c ∈ (gcPushPairs o env hg ss sc ps rng acc).2 →
      c ∈ acc ∨ ∃ p ∈ ps, c.2 = p := by
  intro ps
  induction ps with
  | nil => intro rng acc c h; exact .inl h
  | cons p ps ih =>
    intro rng acc c h
    rcases ih (rng + 1) (acc ++ [(o.score env hg ss sc rng p.1 p.2, p.1, p.2)]) c h with
      h1 | ⟨q, hq, he⟩
    · rcases List.mem_append.mp h1 with h2 | h3
      · exact .inl h2
      · right
        refine ⟨p, List.mem_cons_self _ _, ?_⟩
        rw [List.mem_singleton] at h3
        rw [h3]
    · exact .inr ⟨q, List.mem_cons_of_mem _ hq, he⟩

theorem edgeNodes_nodup (hg : Hypergraph) (h : hg.nodeIds.Nodup) (e : ℕ) :
    (hg.edgeNodes e).Nodup := by
  unfold Hypergraph.edgeNodes
  exact h.sublist ((List.filter_sublist hg.nodes).map Prod.fst)

theorem popMinBy_mem {α : Type} (lt : α → α → Bool) :
    ∀ (l : List α) (m : α) (rest : List α), popMinBy lt l = some (m, rest) →
      m ∈ l ∧ ∀ c ∈ rest, c ∈ l := by
  intro l
  induction l with
  | nil => intro m rest h; simp [popMinBy] at h
  | cons a l ih =>
    intro m rest h
    unfold popMinBy at h
    cases hrec : popMinBy lt l with
    | none =>
      rw [hrec] at h
      have h2 : some (a, ([] : List α)) = some (m, rest) := h
      simp only [Option.some.injEq, Prod.mk.injEq] at h2
      obtain ⟨rfl, rfl⟩ := h2
      exact ⟨List.mem_cons_self _ _, by intro c hc; cases hc⟩
    | some mr =>
      rw [hrec] at h
      have h2 : (if lt mr.1 a = true then some (mr.1, a :: mr.2) else some (a, l)) =
          some (m, rest) := h
      have hmr := ih mr.1 mr.2 (by rw [hrec])
      by_cases hlt : lt mr.1 a = true
      · rw [if_pos hlt] at h2
        simp only [Option.some.injEq, Prod.mk.injEq] at h2
        obtain ⟨rfl, rfl⟩ := h2
        refine ⟨List.mem_cons_of_mem _ hmr.1, ?_⟩
        intro c hc
        rcases List.mem_cons.mp hc with rfl | hc'
        · exact List.mem_cons_self _ _
        · exact List.mem_cons_of_mem _ (hmr.2 c hc')
      · rw [if_neg hlt] at h2
        simp only [Option.some.injEq, Prod.mk.injEq] at h2
        obtain ⟨rfl, rfl⟩ := h2
        exact ⟨List.mem_cons_self _ _, fun c hc => List.mem_cons_of_mem _ hc⟩

theorem gcPopBest_some (hg : Hypergraph) (cands : List (List ℚ × ℕ × ℕ))
    (c : List ℚ × ℕ × ℕ) (rest : List (List ℚ × ℕ × ℕ))
    (h : gcPopBest hg cands = some (c, rest)) :
    c ∈ cands ∧ candLive hg c = true ∧ ∀ x ∈ rest, x ∈ cands := by
  unfold gcPopBest at h
  obtain ⟨hm, hsub⟩ := popMinBy_mem candLt _ c rest h
  exact ⟨List.mem_of_mem_filter hm, List.of_mem_filter hm,
    fun x hx => List.mem_of_mem_filter (hsub x hx)⟩

/-- The loop invariant of `GreedyCompressed.ssa_path` for a problem with `n`
operands: distinct live node ids below the fresh counter, candidate pairs
with distinct members, conservation of (#path steps + #live nodes), and
every original operand either still live or already recorded in the path. -/
def GCInv (n : ℕ) (st : GCState) : Prop :=
  st.hg.nodeIds.Nodup ∧
  (∀ i ∈ st.hg.nodeIds, i < st.hg.fresh) ∧
  (∀ c ∈ st.candidates, c.2.1 ≠ c.2.2) ∧
  st.ssapath.length + st.hg.get_num_nodes = n ∧
  (∀ i, i < n → i ∈ st.hg.nodeIds ∨ ∃ e ∈ st.ssapath, i ∈ e)

theorem gcPushPairs_ne (o : GreedyCompressed) (env : GCEnv) (hg : Hypergraph)
    (ss sc : ℕ → ℚ) (ps : List (ℕ × ℕ)) (rng : ℕ) (acc : List (List ℚ × ℕ × ℕ))
    (hacc : ∀ c ∈ acc, c.2.1 ≠ c.2.2) (hps : ∀ p ∈ ps, p.1 ≠ p.2) :
    ∀ c ∈ (gcPushPairs o env hg ss sc ps rng acc).2, c.2.1 ≠ c.2.2 := by
  intro c hc
  rcases gcPushPairs_mem o env hg ss sc ps rng acc c hc with h | ⟨p, hp, he⟩
  · exact hacc c h
  · rw [he]
    exact hps p hp

theorem flatten_combinations2_ne (hg : Hypergraph) (hnd : hg.nodeIds.Nodup) (es : List ℕ) :
    ∀ p ∈ ((es.map (fun e => combinations2 (hg.edgeNodes e))).flatten : List (ℕ × ℕ)),
      p.1 ≠ p.2 := by
  intro p hp
  obtain ⟨le, hle, hpin⟩ := List.mem_flatten.mp hp
  obtain ⟨e, _, rfl⟩ := List.mem_map.mp hle
  exact combinations2_ne _ (edgeNodes_nodup hg hnd e) p hpin

theorem contractStep_inv (o : GreedyCompressed) (env : GCEnv) (n : ℕ) (st : GCState)
    (i1 i2 : ℕ) (hInv : GCInv n st) (hne : i1 ≠ i2)
    (h1 : st.hg.has_node i1 = true) (h2 : st.hg.has_node i2 = true) :
    ∃ st', o.contractStep env st i1 i2 = .ok st' ∧ GCInv n st' ∧
      st'.hg.get_num_nodes + 1 = st.hg.get_num_nodes := by
  obtain ⟨hnd, hbound, hcand, hcount, hcover⟩ := hInv
  have hm1 : i1 ∈ st.hg.nodeIds := (has_node_iff _ _).mp h1
  have hm2 : i2 ∈ st.hg.nodeIds := (has_node_iff _ _).mp h2
  obtain ⟨st', hok, -, -, hpath, hnodes, hfresh, hcands⟩ :=
    GreedyCompressed.contractStep_ok o env st i1 i2 hne h1 h2
  have hids : st'.hg.nodeIds =
      (st.hg.nodeIds.filter (fun x => decide (x ≠ i1) && decide (x ≠ i2))) ++
        [st.hg.fresh] := by
    show st'.hg.nodes.map Prod.fst = _
    rw [hnodes, List.map_append, filterTwo_map_fst]
    rfl
  have hfsub : ∀ x ∈ st.hg.nodeIds.filter (fun x => decide (x ≠ i1) && decide (x ≠ i2)),
      x ∈ st.hg.nodeIds := fun x hx => List.mem_of_mem_filter hx
  have hidnd : st'.hg.nodeIds.Nodup := by
    rw [hids, List.nodup_append]
    refine ⟨hnd.sublist (List.filter_sublist _), List.nodup_singleton _, ?_⟩
    intro x hx hx2
    rw [List.mem_singleton] at hx2
    subst hx2
    exact absurd (hbound _ (hfsub _ hx)) (lt_irrefl _)
  have hlen : (st.hg.nodeIds.filter
      (fun x => decide (x ≠ i1) && decide (x ≠ i2))).length + 2 = st.hg.nodeIds.length :=
    filter_two_length i1 i2 _ hnd hm1 hm2 hne
  have hnum : st'.hg.get_num_nodes + 1 = st.hg.get_num_nodes := by
    show st'.hg.nodes.length + 1 = st.hg.nodes.length
    rw [hnodes, List.length_append]
    have hm := congrArg List.length hids
    rw [List.length_append] at hm
    have hmapl : st'.hg.nodes.length = st'.hg.nodeIds.length :=
      (List.length_map st'.hg.nodes Prod.fst).symm
    have hmapl2 : st.hg.nodes.length = st.hg.nodeIds.length :=
      (List.length_map st.hg.nodes Prod.fst).symm
    rw [hnodes, List.length_append] at hmapl
    simp only [List.length_singleton] at hm hmapl ⊢
    omega
  refine ⟨st', hok, ⟨hidnd, ?_, ?_, ?_, ?_⟩, hnum⟩
  · rw [hids, hfresh]
    intro i hi
    rcases List.mem_append.mp hi with hi1 | hi2
    · exact Nat.lt_succ_of_lt (hbound i (hfsub i hi1))
    · rw [List.mem_singleton] at hi2
      subst hi2
      exact Nat.lt_succ_self _
  · rw [hcands]
    exact gcPushPairs_ne o env _ _ _ _ _ _ hcand (flatten_combinations2_ne _ hidnd _)
  · rw [hpath, List.length_append]
    have : st.ssapath.length + st.hg.get_num_nodes = n := hcount
    simp only [List.length_singleton]
    omega
  · intro i hi
    rcases hcover i hi with hin | ⟨e, he, hie⟩
    · by_cases hii : i = i1 ∨ i = i2
      · right
        rw [hpath]
        refine ⟨[i1, i2], List.mem_append_right _ (List.mem_singleton_self _), ?_⟩
        rcases hii with rfl | rfl
        · exact List.mem_cons_self _ _
        · exact List.mem_cons_of_mem _ (List.mem_singleton_self _)
      · push_neg at hii
        left
        rw [hids]
        apply List.mem_append_left
        rw [List.mem_filter]
        refine ⟨hin, ?_⟩
        simp [hii.1, hii.2]
    · right
      rw [hpath]
      exact ⟨e, List.mem_append_left _ he, hie⟩

theorem gcLoop_ok (o : GreedyCompressed) (env : GCEnv) (n : ℕ) :
    ∀ (fuel : ℕ) (st : GCState), GCInv n st → st.hg.get_num_nodes ≤ fuel + 2 →
      2 ≤ st.hg.get_num_nodes →
      ∃ st', gcLoop o env fuel st = .ok st' ∧ GCInv n st' ∧ st'.hg.get_num_nodes = 2 := by
  intro fuel
  induction fuel with
  | zero =>
    intro st hInv hle hge
    refine ⟨st, ?_, hInv, by omega⟩
    unfold gcLoop
    rw [if_pos (by omega : st.hg.get_num_nodes ≤ 2)]
  | succ fuel ih =>
    intro st hInv hle hge
    by_cases hdone : st.hg.get_num_nodes ≤ 2
    · refine ⟨st, ?_, hInv, by omega⟩
      unfold gcLoop
      rw [if_pos hdone]
    · push_neg at hdone
      cases hpop : gcPopBest st.hg st.candidates with
      | some cr =>
        obtain ⟨hmem, hlive, hrest⟩ :=
          gcPopBest_some st.hg st.candidates cr.1 cr.2 (by rw [hpop])
        rw [candLive, Bool.and_eq_true] at hlive
        have hnep : cr.1.2.1 ≠ cr.1.2.2 := hInv.2.2.1 cr.1 hmem
        have hInv' : GCInv n { st with candidates := cr.2 } :=
          ⟨hInv.1, hInv.2.1, fun c hc => hInv.2.2.1 c (hrest c hc), hInv.2.2.2.1,
            hInv.2.2.2.2⟩
        obtain ⟨st1, hok, hInv1, hnum⟩ :=
          contractStep_inv o env n { st with candidates := cr.2 } cr.1.2.1 cr.1.2.2 hInv'
            hnep hlive.1 hlive.2
        have hnum2 : st1.hg.get_num_nodes + 1 = st.hg.get_num_nodes := hnum
        obtain ⟨st2, hloop, hInv2, h2n⟩ := ih st1 hInv1 (by omega) (by omega)
        refine ⟨st2, ?_, hInv2, h2n⟩
        unfold gcLoop
        rw [if_neg (by omega), hpop]
        show (o.contractStep env { st with candidates := cr.2 } cr.1.2.1 cr.1.2.2 >>=
          gcLoop o env fuel) = .ok st2
        rw [hok, except_bind_ok]
        exact hloop
      | none =>
        have hlenids : st.hg.nodeIds.length = st.hg.get_num_nodes :=
          List.length_map st.hg.nodes Prod.fst
        cases hids : st.hg.nodeIds with
        | nil =>
          exfalso
          rw [hids] at hlenids
          simp at hlenids
          omega
        | cons i1 t =>
          cases t with
          | nil =>
            exfalso
            rw [hids] at hlenids
            simp at hlenids
            omega
          | cons i2 t2 =>
            have hnd := hInv.1
            rw [hids, List.nodup_cons] at hnd
            have hne12 : i1 ≠ i2 := fun hc =>
              hnd.1 (hc ▸ List.mem_cons_self i2 t2)
            have hh1 : st.hg.has_node i1 = true := by
              rw [has_node_iff, hids]
              exact List.mem_cons_self _ _
            have hh2 : st.hg.has_node i2 = true := by
              rw [has_node_iff, hids]
              exact List.mem_cons_of_mem _ (List.mem_cons_self _ _)
            have hInv' : GCInv n { st with candidates := [] } :=
              ⟨hInv.1, hInv.2.1, fun c hc => absurd hc (List.not_mem_nil c),
                hInv.2.2.2.1, hInv.2.2.2.2⟩
            obtain ⟨st1, hok, hInv1, hnum⟩ :=
              contractStep_inv o env n { st with candidates := [] } i1 i2 hInv'
                hne12 hh1 hh2
            have hnum2 : st1.hg.get_num_nodes + 1 = st.hg.get_num_nodes := hnum
            obtain ⟨st2, hloop, hInv2, h2n⟩ := ih st1 hInv1 (by omega) (by omega)
            refine ⟨st2, ?_, hInv2, h2n⟩
            unfold gcLoop
            rw [if_neg (by omega), hpop, hids]
            show (o.contractStep env { st with candidates := [] } i1 i2 >>=
              gcLoop o env fuel) = .ok st2
            rw [hok, except_bind_ok]
            exact hloop

/-- `GreedyCompressed.ssa_path` always succeeds on a problem with at least
two operands, producing exactly `n - 1` steps whose final entry is a pair,
and covering every original operand. -/
theorem gc_ssa_path_spec (o : GreedyCompressed) (env : GCEnv) (inputs : List (List ℕ))
    (output : List ℕ) (size_dict : ℕ → ℕ) (hn : 2 ≤ inputs.length) :
    ∃ path, GreedyCompressed.ssa_path o env inputs output size_dict = .ok path ∧
      path.length = inputs.length - 1 ∧
      (∃ last, path.getLast? = some last ∧ last.length = 2) ∧
      (∀ i < inputs.length, ∃ e ∈ path, i ∈ e) := by
  have hids0 : (get_hypergraph inputs output size_dict).nodeIds = List.range inputs.length := by
    show inputs.enum.map Prod.fst = _
    exact List.enum_map_fst inputs
  have hnum0 : (get_hypergraph inputs output size_dict).get_num_nodes = inputs.length := by
    show inputs.enum.length = _
    exact List.enum_length
  have hInv0 : GCInv inputs.length
      ⟨get_hypergraph inputs output size_dict,
        (gcPushPairs o env (get_hypergraph inputs output size_dict) (fun _ => 1)
          (get_hypergraph inputs output size_dict).simple_centrality
          (((get_hypergraph inputs output size_dict).edgeList.map
            (fun e => combinations2 ((get_hypergraph inputs output size_dict).edgeNodes e))).flatten)
          0 []).2,
        fun _ => 1, (get_hypergraph inputs output size_dict).simple_centrality,
        (gcPushPairs o env (get_hypergraph inputs output size_dict) (fun _ => 1)
          (get_hypergraph inputs output size_dict).simple_centrality
          (((get_hypergraph inputs output size_dict).edgeList.map
            (fun e => combinations2 ((get_hypergraph inputs output size_dict).edgeNodes e))).flatten)
          0 []).1, []⟩ := by
    refine ⟨?_, ?_, ?_, ?_, ?_⟩
    · show (get_hypergraph inputs output size_dict).nodeIds.Nodup
      rw [hids0]
      exact List.nodup_range _
    · show ∀ i ∈ (get_hypergraph inputs output size_dict).nodeIds, i < inputs.length
      rw [hids0]
      intro i hi
      exact List.mem_range.mp hi
    · exact gcPushPairs_ne o env _ _ _ _ _ _ (fun c hc => absurd hc (List.not_mem_nil c))
        (flatten_combinations2_ne _ (by rw [hids0]; exact List.nodup_range _) _)
    · show 0 + (get_hypergraph inputs output size_dict).get_num_nodes = inputs.length
      rw [hnum0]
      omega
    · intro i hi
      left
      show i ∈ (get_hypergraph inputs output size_dict).nodeIds
      rw [hids0]
      exact List.mem_range.mpr hi
  obtain ⟨stF, hloop, hInvF, hnumF⟩ := gcLoop_ok o env inputs.length
    (get_hypergraph inputs output size_dict).get_num_nodes _ hInv0
    (by
      show (get_hypergraph inputs output size_dict).get_num_nodes ≤
        (get_hypergraph inputs output size_dict).get_num_nodes + 2
      omega)
    (by
      show 2 ≤ (get_hypergraph inputs output size_dict).get_num_nodes
      rw [hnum0]
      exact hn)
  have hlenF : stF.hg.nodeIds.length = 2 := by
    show (stF.hg.nodes.map Prod.fst).length = 2
    rw [List.length_map]
    exact hnumF
  refine ⟨stF.ssapath ++ [stF.hg.nodeIds], ?_, ?_, ?_, ?_⟩
  · show ((gcLoop o env (get_hypergraph inputs output size_dict).get_num_nodes _) >>=
      fun stF => Except.ok (stF.ssapath ++ [stF.hg.nodeIds])) = _
    rw [hloop, except_bind_ok]
  · rw [List.length_append]
    have hc := hInvF.2.2.2.1
    rw [hnumF] at hc
    simp only [List.length_singleton]
    omega
  · exact ⟨stF.hg.nodeIds, List.getLast?_concat _, hlenF⟩
  · intro i hi
    rcases hInvF.2.2.2.2 i hi with hin | ⟨e, he, hie⟩
    · exact ⟨stF.hg.nodeIds, List.mem_append_right _ (List.mem_singleton_self _), hin⟩
    · exact ⟨e, List.mem_append_left _ he, hie⟩

end GCInvariant

section SpanInvariant

theorem odedup_subset {α : Type} [DecidableEq α] : ∀ l : List α, odedup l ⊆ l := by
  intro l
  induction l with
  | nil => exact fun x hx => hx
  | cons a rest ih =>
    intro x hx
    rcases List.mem_cons.mp hx with rfl | hx2
    · exact List.mem_cons_self _ _
    · exact List.mem_cons_of_mem _ (ih (List.mem_of_mem_filter hx2))

theorem edgeNodes_subset (hg : Hypergraph) (e : ℕ) : hg.edgeNodes e ⊆ hg.nodeIds := by
  intro x hx
  unfold Hypergraph.edgeNodes at hx
  obtain ⟨nv, hnv, rfl⟩ := List.mem_map.mp hx
  show nv.1 ∈ hg.nodes.map Prod.fst
  exact List.mem_map_of_mem Prod.fst (List.mem_of_mem_filter hnv)

theorem neighbors_subset (hg : Hypergraph) (i : ℕ) : hg.neighbors i ⊆ hg.nodeIds := by
  intro x hx
  unfold Hypergraph.neighbors at hx
  have hx2 := odedup_subset _ hx
  have hx3 := List.mem_of_mem_filter hx2
  obtain ⟨le, hle, hxle⟩ := List.mem_flatten.mp hx3
  obtain ⟨e, -, rfl⟩ := List.mem_map.mp hle
  exact edgeNodes_subset hg e hxle

/-- The loop invariant of `GreedySpan.ssa_path`'s absorption phase: the
region is a duplicate-free list of real nodes, the candidate list is
duplicate-free, and every candidate is a real node outside the region that
already has a merge target assigned. -/
def SpanInv (hg : Hypergraph) (st : SpanState) : Prop :=
  st.region.Nodup ∧ (∀ i ∈ st.region, i ∈ hg.nodeIds) ∧
  st.candidates.Nodup ∧
  ∀ c ∈ st.candidates, c ∉ st.region ∧
    (alistLookup st.merges c).isSome = true ∧ c ∈ hg.nodeIds

theorem check_candidate_spec (o : GreedySpan) (env : GCEnv) (hg : Hypergraph)
    (distances : ℕ → ℚ) (st : SpanState) (i j : ℕ) (hj : j ∈ hg.nodeIds)
    (hInv : SpanInv hg st) :
    SpanInv hg (o.check_candidate env hg distances st i j) ∧
    (o.check_candidate env hg distances st i j).region = st.region ∧
    (o.check_candidate env hg distances st i j).seq = st.seq ∧
    ∀ k, (alistLookup st.merges k).isSome = true →
      (alistLookup (o.check_candidate env hg distances st i j).merges k).isSome = true := by
  have hshape :
      o.check_candidate env hg distances st i j = st ∨
      ∃ m2 cnd2,
        (m2 = st.merges ∨ m2 = alistStore st.merges j i) ∧
        (cnd2 = st.candidates ∨
          (cnd2 = st.candidates ++ [j] ∧ j ∉ st.region ∧
            alistLookup st.merges j = none ∧ m2 = alistStore st.merges j i)) ∧
        ∃ conn2, o.check_candidate env hg distances st i j =
          ⟨st.region, cnd2, m2, conn2, st.seq, st.rng⟩ := by
    unfold GreedySpan.check_candidate
    by_cases hjr : j ∈ st.region
    · left
      rw [if_pos hjr]
    · right
      rw [if_neg hjr]
      cases hl : alistLookup st.merges j with
      | none =>
        refine ⟨alistStore st.merges j i, st.candidates ++ [j],
          .inr rfl, .inr ⟨rfl, hjr, rfl, rfl⟩, ?_⟩
        cases hb : o.connectivity_weight_bonds <;> exact ⟨_, rfl⟩
      | some cur =>
        cases hsteal : o.distance_steal with
        | off =>
          refine ⟨st.merges, st.candidates, .inl rfl, .inl rfl, ?_⟩
          cases hb : o.connectivity_weight_bonds <;> exact ⟨_, rfl⟩
        | sabs =>
          by_cases hd : distances i < distances cur
          · refine ⟨alistStore st.merges j i, st.candidates, .inr rfl, .inl rfl,
              if o.connectivity_weight_bonds = true then
                Function.update st.connectivity j
                  (st.connectivity j + env.lg (hg.bond_size i j))
              else Function.update st.connectivity j (st.connectivity j + 1), ?_⟩
            cases hb : o.connectivity_weight_bonds <;> simp [hd, hb]
          · refine ⟨st.merges, st.candidates, .inl rfl, .inl rfl,
              if o.connectivity_weight_bonds = true then
                Function.update st.connectivity j
                  (st.connectivity j + env.lg (hg.bond_size i j))
              else Function.update st.connectivity j (st.connectivity j + 1), ?_⟩
            cases hb : o.connectivity_weight_bonds <;> simp [hd, hb]
        | srel =>
          by_cases hd : |distances i - distances j| > |distances cur - distances j|
          · refine ⟨alistStore st.merges j i, st.candidates, .inr rfl, .inl rfl,
              if o.connectivity_weight_bonds = true then
                Function.update st.connectivity j
                  (st.connectivity j + env.lg (hg.bond_size i j))
              else Function.update st.connectivity j (st.connectivity j + 1), ?_⟩
            cases hb : o.connectivity_weight_bonds <;> simp [hd, hb]
          · refine ⟨st.merges, st.candidates, .inl rfl, .inl rfl,
              if o.connectivity_weight_bonds = true then
                Function.update st.connectivity j
                  (st.connectivity j + env.lg (hg.bond_size i j))
              else Function.update st.connectivity j (st.connectivity j + 1), ?_⟩
            cases hb : o.connectivity_weight_bonds <;> simp [hd, hb]
  rcases hshape with heq | ⟨m2, cnd2, hm2, hcnd2, conn2, heq⟩
  · rw [heq]
    exact ⟨hInv, rfl, rfl, fun k hk => hk⟩
  · obtain ⟨hreg_nd, hreg_sub, hcand_nd, hcand⟩ := hInv
    have hmono : ∀ k, (alistLookup st.merges k).isSome = true →
        (alistLookup m2 k).isSome = true := by
      rcases hm2 with rfl | rfl
      · exact fun k hk => hk
      · exact fun k hk => alistStore_isSome _ _ _ _ hk
    rw [heq]
    refine ⟨⟨hreg_nd, hreg_sub, ?_, ?_⟩, rfl, rfl, hmono⟩
    · rcases hcnd2 with rfl | ⟨hc2, hjr, hl, hm⟩
      · exact hcand_nd
      · subst hc2
        have hjnot : j ∉ st.candidates := by
          intro hc
          have h2 := (hcand j hc).2.1
          rw [hl] at h2
          simp at h2
        rw [List.nodup_append]
        refine ⟨hcand_nd, List.nodup_singleton _, ?_⟩
        intro a ha hb
        rw [List.mem_singleton] at hb
        subst hb
        exact hjnot ha
    · intro c hc
      rcases hcnd2 with rfl | ⟨hc2, hjr, hl, hm⟩
      · obtain ⟨h1, h2, h3⟩ := hcand c hc
        exact ⟨h1, hmono c h2, h3⟩
      · subst hc2
        rcases List.mem_append.mp hc with hcc | hcj
        · obtain ⟨h1, h2, h3⟩ := hcand c hcc
          exact ⟨h1, hmono c h2, h3⟩
        · rw [List.mem_singleton] at hcj
          subst hcj
          refine ⟨hjr, ?_, hj⟩
          rw [hm, alistLookup_alistStore]
          simp

theorem check_fold_spec (o : GreedySpan) (env : GCEnv) (hg : Hypergraph)
    (distances : ℕ → ℚ) (i : ℕ) :
    ∀ (js : List ℕ), (∀ j ∈ js, j ∈ hg.nodeIds) → ∀ st : SpanState, SpanInv hg st →
      SpanInv hg (js.foldl (fun s j => o.check_candidate env hg distances s i j) st) ∧
      (js.foldl (fun s j => o.check_candidate env hg distances s i j) st).region =
        st.region ∧
      (js.foldl (fun s j => o.check_candidate env hg distances s i j) st).seq = st.seq ∧
      ∀ k, (alistLookup st.merges k).isSome = true →
        (alistLookup (js.foldl
          (fun s j => o.check_candidate env hg distances s i j) st).merges k).isSome =
          true := by
  intro js
  induction js with
  | nil =>
    intro _ st hInv
    exact ⟨hInv, rfl, rfl, fun k hk => hk⟩
  | cons j rest ih =>
    intro hjs st hInv
    obtain ⟨h1, h2, h3, h4⟩ := check_candidate_spec o env hg distances st i j
      (hjs j (List.mem_cons_self _ _)) hInv
    obtain ⟨g1, g2, g3, g4⟩ := ih (fun x hx => hjs x (List.mem_cons_of_mem _ hx)) _ h1
    rw [List.foldl_cons]
    exact ⟨g1, by rw [g2, h2], by rw [g3, h3], fun k hk => g4 k (h4 k hk)⟩

theorem seed_fold_spec (o : GreedySpan) (env : GCEnv) (hg : Hypergraph)
    (distances : ℕ → ℚ) :
    ∀ (is : List ℕ) (st : SpanState), SpanInv hg st →
      SpanInv hg (is.foldl (fun s i => (hg.neighbors i).foldl
        (fun s2 j => o.check_candidate env hg distances s2 i j) s) st) ∧
      (is.foldl (fun s i => (hg.neighbors i).foldl
        (fun s2 j => o.check_candidate env hg distances s2 i j) s) st).region =
        st.region ∧
      (is.foldl (fun s i => (hg.neighbors i).foldl
        (fun s2 j => o.check_candidate env hg distances s2 i j) s) st).seq = st.seq := by
  intro is
  induction is with
  | nil =>
    intro st hInv
    exact ⟨hInv, rfl, rfl⟩
  | cons i rest ih =>
    intro st hInv
    obtain ⟨h1, h2, h3, -⟩ := check_fold_spec o env hg distances i (hg.neighbors i)
      (fun j hj => neighbors_subset hg i hj) st hInv
    obtain ⟨g1, g2, g3⟩ := ih _ h1
    rw [List.foldl_cons]
    exact ⟨g1, by rw [g2, h2], by rw [g3, h3]⟩

theorem nodup_getLast_not_mem_dropLast {α : Type} (l : List α) (h : l ≠ [])
    (hnd : l.Nodup) : l.getLast h ∉ l.dropLast := by
  intro hmem
  have heq := List.dropLast_append_getLast h
  rw [← heq] at hnd
  exact List.disjoint_of_nodup_append hnd hmem (List.mem_singleton_self _)

theorem spanSorted_perm (o : GreedySpan) (env : GCEnv) (inputs : List (List ℕ))
    (cents distances : ℕ → ℚ) (st : SpanState) :
    (spanSorted o env inputs cents distances st).Perm st.candidates := by
  unfold spanSorted
  refine ((List.perm_insertionSort spanKeyLe _).map Prod.snd).trans ?_
  rw [List.map_map]
  show (st.candidates.enum.map Prod.snd).Perm st.candidates
  rw [List.enum_map_snd]

theorem spanStep_ok (o : GreedySpan) (env : GCEnv) (hg : Hypergraph)
    (inputs : List (List ℕ)) (cents distances : ℕ → ℚ) (st : SpanState)
    (hInv : SpanInv hg st) (hne : st.candidates ≠ []) :
    ∃ st', spanStep o env hg inputs cents distances st = .ok st' ∧ SpanInv hg st' ∧
      st'.region.length = st.region.length + 1 ∧
      st'.seq.length = st.seq.length + 1 := by
  obtain ⟨hreg_nd, hreg_sub, hcand_nd, hcand⟩ := hInv
  have hperm := spanSorted_perm o env inputs cents distances st
  have hne' : spanSorted o env inputs cents distances st ≠ [] := by
    intro h0
    have hlen := hperm.length_eq
    rw [h0] at hlen
    simp only [List.length_nil] at hlen
    exact hne (List.length_eq_zero.mp hlen.symm)
  cases hlast : (spanSorted o env inputs cents distances st).getLast? with
  | none => exact absurd (List.getLast?_eq_none_iff.mp hlast) hne'
  | some i_surface =>
    have hi_sorted : i_surface ∈ spanSorted o env inputs cents distances st :=
      List.mem_of_mem_getLast? hlast
    have hi_cand : i_surface ∈ st.candidates := hperm.subset hi_sorted
    obtain ⟨hi_nreg, hi_some, hi_id⟩ := hcand i_surface hi_cand
    have hsorted_nd : (spanSorted o env inputs cents distances st).Nodup :=
      hperm.nodup_iff.mpr hcand_nd
    have hgetLast_eq : (spanSorted o env inputs cents distances st).getLast hne' =
        i_surface := by
      have h2 := List.getLast?_eq_getLast (spanSorted o env inputs cents distances st) hne'
      rw [hlast] at h2
      exact (Option.some.inj h2).symm
    have hi_not_drop : i_surface ∉ (spanSorted o env inputs cents distances st).dropLast := by
      rw [← hgetLast_eq]
      exact nodup_getLast_not_mem_dropLast _ hne' hsorted_nd
    have hdrop_sub : ∀ c ∈ (spanSorted o env inputs cents distances st).dropLast,
        c ∈ st.candidates :=
      fun c hc => hperm.subset ((List.dropLast_sublist _).subset hc)
    have hdrop_nd : (spanSorted o env inputs cents distances st).dropLast.Nodup :=
      hsorted_nd.sublist (List.dropLast_sublist _)
    have hpop : spanPopped o env inputs cents distances st i_surface =
        { st with
          region := st.region ++ [i_surface]
          candidates := (spanSorted o env inputs cents distances st).dropLast
          rng := st.rng + st.candidates.length } := by
      unfold spanPopped
      rw [if_neg hi_nreg]
    have hInv1 : SpanInv hg
        { st with
          region := st.region ++ [i_surface]
          candidates := (spanSorted o env inputs cents distances st).dropLast
          rng := st.rng + st.candidates.length } := by
      refine ⟨?_, ?_, hdrop_nd, ?_⟩
      · rw [List.nodup_append]
        refine ⟨hreg_nd, List.nodup_singleton _, ?_⟩
        intro a ha hb
        rw [List.mem_singleton] at hb
        subst hb
        exact hi_nreg ha
      · intro x hx
        rcases List.mem_append.mp hx with h | h
        · exact hreg_sub x h
        · rw [List.mem_singleton] at h
          subst h
          exact hi_id
      · intro c hc
        obtain ⟨h1, h2, h3⟩ := hcand c (hdrop_sub c hc)
        refine ⟨?_, h2, h3⟩
        intro hcr
        rcases List.mem_append.mp hcr with h | h
        · exact h1 h
        · rw [List.mem_singleton] at h
          subst h
          exact hi_not_drop hc
    obtain ⟨hInv2, hreg2, hseq2, hmono2⟩ := check_fold_spec o env hg distances i_surface
      (hg.neighbors i_surface) (fun j hj => neighbors_subset hg i_surface hj) _ hInv1
    have hab : spanAbsorbed o env hg inputs cents distances st i_surface =
        (hg.neighbors i_surface).foldl
          (fun s j => o.check_candidate env hg distances s i_surface j)
          { st with
            region := st.region ++ [i_surface]
            candidates := (spanSorted o env inputs cents distances st).dropLast
            rng := st.rng + st.candidates.length } := by
      unfold spanAbsorbed
      rw [hpop]
    have hab_some : (alistLookup
        (spanAbsorbed o env hg inputs cents distances st i_surface).merges
        i_surface).isSome = true := by
      rw [hab]
      exact hmono2 i_surface hi_some
    obtain ⟨tgt, htgt⟩ := Option.isSome_iff_exists.mp hab_some
    have hstep : spanStep o env hg inputs cents distances st =
        .ok { spanAbsorbed o env hg inputs cents distances st i_surface with
              seq := (spanAbsorbed o env hg inputs cents distances st i_surface).seq ++
                [(i_surface, tgt)] } := by
      unfold spanStep
      simp only [hlast, htgt]
    refine ⟨_, hstep, ?_, ?_, ?_⟩
    · show SpanInv hg
        { spanAbsorbed o env hg inputs cents distances st i_surface with
          seq := (spanAbsorbed o env hg inputs cents distances st i_surface).seq ++
            [(i_surface, tgt)] }
      rw [hab]
      exact ⟨hInv2.1, hInv2.2.1, hInv2.2.2.1, hInv2.2.2.2⟩
    · show (spanAbsorbed o env hg inputs cents distances st i_surface).region.length =
        st.region.length + 1
      rw [hab]
      have hreg2' : ((hg.neighbors i_surface).foldl
          (fun s j => o.check_candidate env hg distances s i_surface j)
          { st with
            region := st.region ++ [i_surface]
            candidates := (spanSorted o env inputs cents distances st).dropLast
            rng := st.rng + st.candidates.length }).region =
          st.region ++ [i_surface] := hreg2
      rw [hreg2', List.length_append]
      rfl
    · show ((spanAbsorbed o env hg inputs cents distances st i_surface).seq ++
        [(i_surface, tgt)]).length = st.seq.length + 1
      rw [hab]
      have hseq2' : ((hg.neighbors i_surface).foldl
          (fun s j => o.check_candidate env hg distances s i_surface j)
          { st with
            region := st.region ++ [i_surface]
            candidates := (spanSorted o env inputs cents distances st).dropLast
            rng := st.rng + st.candidates.length }).seq = st.seq := hseq2
      rw [hseq2', List.length_append]
      rfl

theorem region_lt_of_candidate (hg : Hypergraph)
    (st : SpanState) (hInv : SpanInv hg st) (hne : st.candidates ≠ []) :
    st.region.length < hg.nodeIds.length := by
  obtain ⟨hreg_nd, hreg_sub, -, hcand⟩ := hInv
  obtain ⟨c, hc⟩ := List.exists_mem_of_ne_nil st.candidates hne
  obtain ⟨hcr, -, hcid⟩ := hcand c hc
  have hnd2 : (st.region ++ [c]).Nodup := by
    rw [List.nodup_append]
    refine ⟨hreg_nd, List.nodup_singleton _, ?_⟩
    intro a ha hb
    rw [List.mem_singleton] at hb
    subst hb
    exact hcr ha
  have hsub2 : st.region ++ [c] ⊆ hg.nodeIds := by
    intro x hx
    rcases List.mem_append.mp hx with h | h
    · exact hreg_sub x h
    · rw [List.mem_singleton] at h
      subst h
      exact hcid
  have hle := (List.subperm_of_subset hnd2 hsub2).length_le
  rw [List.length_append] at hle
  simp only [List.length_singleton] at hle
  omega

theorem spanLoop_ok (o : GreedySpan) (env : GCEnv) (hg : Hypergraph)
    (inputs : List (List ℕ)) (cents distances : ℕ → ℚ) :
    ∀ (fuel : ℕ) (st : SpanState), SpanInv hg st →
      hg.nodeIds.length ≤ st.region.length + fuel →
      ∃ stF, spanLoop o env hg inputs cents distances fuel st = .ok stF ∧
        SpanInv hg stF ∧ stF.candidates = [] ∧
        stF.seq.length + st.region.length = st.seq.length + stF.region.length := by
  intro fuel
  induction fuel with
  | zero =>
    intro st hInv hle
    by_cases hc : st.candidates = []
    · refine ⟨st, ?_, hInv, hc, by omega⟩
      unfold spanLoop
      rw [if_pos hc]
    · have := region_lt_of_candidate hg st hInv hc
      omega
  | succ fuel ih =>
    intro st hInv hle
    by_cases hc : st.candidates = []
    · refine ⟨st, ?_, hInv, hc, by omega⟩
      unfold spanLoop
      rw [if_pos hc]
    · obtain ⟨st', hstep, hInv', hreg', hseq'⟩ :=
        spanStep_ok o env hg inputs cents distances st hInv hc
      obtain ⟨stF, hloop, hInvF, hcF, harith⟩ := ih st' hInv' (by omega)
      refine ⟨stF, ?_, hInvF, hcF, by omega⟩
      unfold spanLoop
      rw [if_neg hc, hstep, except_bind_ok, hloop]

theorem seed_oracle_fold_ok :
    ∀ (p : List (ℕ × ℕ)) (onodes : List ℕ) (ms sq : List (ℕ × ℕ)),
      validOraclePath onodes.length p = true →
      ∃ res : List ℕ × List (ℕ × ℕ) × List (ℕ × ℕ),
        (p.foldlM
          (fun (acc : List ℕ × List (ℕ × ℕ) × List (ℕ × ℕ)) pp =>
            match acc.1.get? pp.1, acc.1.get? pp.2 with
            | some a, some b =>
              .ok (acc.1 ++ [b], alistStore acc.2.1 a b, acc.2.2 ++ [(a, b)])
            | _, _ =>
              (.error "IndexError" : Except String (List ℕ × List (ℕ × ℕ) × List (ℕ × ℕ))))
          (onodes, ms, sq) :
            Except String (List ℕ × List (ℕ × ℕ) × List (ℕ × ℕ))) = .ok res ∧
        res.2.2.length = sq.length + p.length := by
  intro p
  induction p with
  | nil =>
    intro onodes ms sq _
    exact ⟨(onodes, ms, sq), rfl, by simp⟩
  | cons pp rest ih =>
    intro onodes ms sq hv
    unfold validOraclePath at hv
    rw [Bool.and_eq_true, Bool.and_eq_true] at hv
    obtain ⟨⟨h1, h2⟩, h3⟩ := hv
    rw [decide_eq_true_eq] at h1 h2
    have hg1 : onodes.get? pp.1 = some (onodes.get ⟨pp.1, h1⟩) := List.get?_eq_get h1
    have hg2 : onodes.get? pp.2 = some (onodes.get ⟨pp.2, h2⟩) := List.get?_eq_get h2
    obtain ⟨res, hres, hlen⟩ := ih (onodes ++ [onodes.get ⟨pp.2, h2⟩])
      (alistStore ms (onodes.get ⟨pp.1, h1⟩) (onodes.get ⟨pp.2, h2⟩))
      (sq ++ [(onodes.get ⟨pp.1, h1⟩, onodes.get ⟨pp.2, h2⟩)])
      (by
        have hlen2 : (onodes ++ [onodes.get ⟨pp.2, h2⟩]).length = onodes.length + 1 := by
          rw [List.length_append]
          rfl
        rw [hlen2]
        exact h3)
    refine ⟨res, ?_, ?_⟩
    · rw [List.foldlM_cons]
      simp only [hg1, hg2, except_bind_ok]
      exact hres
    · rw [hlen]
      simp only [List.length_append, List.length_singleton, List.length_cons,
        List.length_nil]
      omega

theorem spanSeedPhase_ok (oracle : List (List ℕ) → List ℕ → (ℕ → ℕ) → List (ℕ × ℕ))
    (inputs : List (List ℕ)) (output : List ℕ) (size_dict : ℕ → ℕ) (r0 : List ℕ)
    (hcase : r0.length = 1 ∨ r0.length = 2 ∨
      (validOraclePath r0.length
          (oracle (r0.map (fun i => inputs.getD i [])) output size_dict) = true ∧
        (oracle (r0.map (fun i => inputs.getD i [])) output size_dict).length =
          r0.length - 1)) :
    ∃ ms, spanSeedPhase oracle inputs output size_dict r0 = .ok ms ∧
      ms.2.length = r0.length - 1 := by
  by_cases hl1 : r0.length = 1
  · refine ⟨([], []), ?_, by simp [hl1]⟩
    unfold spanSeedPhase
    rw [if_pos hl1]
  by_cases hl2 : r0.length = 2
  · obtain ⟨a, b, rfl⟩ := List.length_eq_two.mp hl2
    exact ⟨([], [(a, b)]), rfl, rfl⟩
  rcases hcase with h | h | ⟨hv, hlen⟩
  · exact absurd h hl1
  · exact absurd h hl2
  obtain ⟨res, hres, hrlen⟩ := seed_oracle_fold_ok
    (oracle (r0.map (fun i => inputs.getD i [])) output size_dict) r0 [] [] hv
  refine ⟨(res.2.1, res.2.2.reverse), ?_, ?_⟩
  · unfold spanSeedPhase
    rw [if_neg hl1, if_neg hl2, hres, except_bind_ok]
  · show res.2.2.reverse.length = r0.length - 1
    rw [List.length_reverse, hrlen]
    simp only [List.length_nil, Nat.zero_add]
    exact hlen

theorem span_run_eq (o : GreedySpan) (env : GCEnv)
    (oracle : List (List ℕ) → List ℕ → (ℕ → ℕ) → List (ℕ × ℕ))
    (inputs : List (List ℕ)) (output : List ℕ) (size_dict : ℕ → ℕ) :
    GreedySpan.run o env oracle inputs output size_dict =
      spanSeedPhase oracle inputs output size_dict
          (spanRegion0 o inputs output size_dict) >>= fun ms =>
        spanLoop o env (get_hypergraph inputs output size_dict) inputs
          (get_hypergraph inputs output size_dict).simple_centrality
          (spanDistances o inputs output size_dict)
          (get_hypergraph inputs output size_dict).get_num_nodes
          (spanSeedState o env inputs output size_dict ms) := rfl

theorem span_run_spec (o : GreedySpan) (env : GCEnv)
    (oracle : List (List ℕ) → List ℕ → (ℕ → ℕ) → List (ℕ × ℕ))
    (inputs : List (List ℕ)) (output : List ℕ) (size_dict : ℕ → ℕ)
    (hr_ne : spanRegion0 o inputs output size_dict ≠ [])
    (hr_nd : (spanRegion0 o inputs output size_dict).Nodup)
    (hr_sub : ∀ i ∈ spanRegion0 o inputs output size_dict,
      i ∈ (get_hypergraph inputs output size_dict).nodeIds)
    (hseed : (spanRegion0 o inputs output size_dict).length = 1 ∨
      (spanRegion0 o inputs output size_dict).length = 2 ∨
      (validOraclePath (spanRegion0 o inputs output size_dict).length
          (oracle ((spanRegion0 o inputs output size_dict).map
            (fun i => inputs.getD i [])) output size_dict) = true ∧
        (oracle ((spanRegion0 o inputs output size_dict).map
          (fun i => inputs.getD i [])) output size_dict).length =
          (spanRegion0 o inputs output size_dict).length - 1)) :
    ∃ stF, GreedySpan.run o env oracle inputs output size_dict = .ok stF ∧
      stF.candidates = [] ∧ stF.seq.length + 1 = stF.region.length ∧
      stF.region.Nodup ∧
      ∀ i ∈ stF.region, i ∈ (get_hypergraph inputs output size_dict).nodeIds := by
  obtain ⟨ms, hms, hms_len⟩ := spanSeedPhase_ok oracle inputs output size_dict _ hseed
  have hInv0 : SpanInv (get_hypergraph inputs output size_dict)
      ⟨spanRegion0 o inputs output size_dict, [], ms.1, fun _ => 0, ms.2, 0⟩ := by
    refine ⟨hr_nd, hr_sub, List.nodup_nil, ?_⟩
    intro c hc
    exact absurd hc (List.not_mem_nil c)
  obtain ⟨hInv1, hreg1, hseq1⟩ := seed_fold_spec o env
    (get_hypergraph inputs output size_dict) (spanDistances o inputs output size_dict)
    (spanRegion0 o inputs output size_dict)
    ⟨spanRegion0 o inputs output size_dict, [], ms.1, fun _ => 0, ms.2, 0⟩ hInv0
  have hInv1' : SpanInv (get_hypergraph inputs output size_dict)
      (spanSeedState o env inputs output size_dict ms) := hInv1
  have hlen_ids : (get_hypergraph inputs output size_dict).nodeIds.length =
      (get_hypergraph inputs output size_dict).get_num_nodes :=
    List.length_map _ _
  obtain ⟨stF, hloop, hInvF, hcF, harith⟩ := spanLoop_ok o env
    (get_hypergraph inputs output size_dict) inputs
    (get_hypergraph inputs output size_dict).simple_centrality
    (spanDistances o inputs output size_dict)
    (get_hypergraph inputs output size_dict).get_num_nodes
    (spanSeedState o env inputs output size_dict ms) hInv1' (by omega)
  have hA : (spanSeedState o env inputs output size_dict ms).region =
      spanRegion0 o inputs output size_dict := hreg1
  have hB : (spanSeedState o env inputs output size_dict ms).seq = ms.2 := hseq1
  rw [hA, hB] at harith
  have hr_pos : 0 < (spanRegion0 o inputs output size_dict).length :=
    List.length_pos.mpr hr_ne
  refine ⟨stF, ?_, hcF, by omega, hInvF.1, hInvF.2.1⟩
  rw [span_run_eq, hms, except_bind_ok]
  exact hloop

theorem span_translate_len :
    ∀ (sq : List (ℕ × ℕ)) (f : ℕ → ℕ) (k : ℕ) (acc : List (ℕ × ℕ)),
      ((sq.foldl (fun (acc2 : (ℕ → ℕ) × ℕ × List (ℕ × ℕ)) ij =>
        (Function.update acc2.1 ij.2 acc2.2.1, acc2.2.1 + 1,
          acc2.2.2 ++ [(acc2.1 ij.1, acc2.1 ij.2)])) (f, k, acc)).2.2).length =
      acc.length + sq.length := by
  intro sq
  induction sq with
  | nil =>
    intro f k acc
    simp
  | cons ij rest ih =>
    intro f k acc
    rw [List.foldl_cons]
    have hstep := ih (Function.update f ij.2 k) (k + 1) (acc ++ [(f ij.1, f ij.2)])
    rw [hstep]
    simp only [List.length_append, List.length_singleton, List.length_cons,
      List.length_nil]
    omega

theorem span_ssa_path_spec (o : GreedySpan) (env : GCEnv)
    (oracle : List (List ℕ) → List ℕ → (ℕ → ℕ) → List (ℕ × ℕ))
    (inputs : List (List ℕ)) (output : List ℕ) (size_dict : ℕ → ℕ)
    (hr_ne : spanRegion0 o inputs output size_dict ≠ [])
    (hr_nd : (spanRegion0 o inputs output size_dict).Nodup)
    (hr_sub : ∀ i ∈ spanRegion0 o inputs output size_dict,
      i ∈ (get_hypergraph inputs output size_dict).nodeIds)
    (hseed : (spanRegion0 o inputs output size_dict).length = 1 ∨
      (spanRegion0 o inputs output size_dict).length = 2 ∨
      (validOraclePath (spanRegion0 o inputs output size_dict).length
          (oracle ((spanRegion0 o inputs output size_dict).map
            (fun i => inputs.getD i [])) output size_dict) = true ∧
        (oracle ((spanRegion0 o inputs output size_dict).map
          (fun i => inputs.getD i [])) output size_dict).length =
          (spanRegion0 o inputs output size_dict).length - 1)) :
    ∃ stF path, GreedySpan.run o env oracle inputs output size_dict = .ok stF ∧
      GreedySpan.ssa_path o env oracle inputs output size_dict = .ok path ∧
      path.length + 1 = stF.region.length ∧
      path.length + 1 ≤ inputs.length := by
  obtain ⟨stF, hrun, hcF, hlen, hnd, hsub⟩ :=
    span_run_spec o env oracle inputs output size_dict hr_ne hr_nd hr_sub hseed
  refine ⟨stF,
    (stF.seq.reverse.foldl (fun (acc : (ℕ → ℕ) × ℕ × List (ℕ × ℕ)) ij =>
      (Function.update acc.1 ij.2 acc.2.1, acc.2.1 + 1,
        acc.2.2 ++ [(acc.1 ij.1, acc.1 ij.2)]))
      ((fun i => i), (get_hypergraph inputs output size_dict).get_num_nodes, [])).2.2,
    hrun, ?_, ?_, ?_⟩
  · unfold GreedySpan.ssa_path
    rw [hrun, except_bind_ok]
  · rw [span_translate_len]
    simp only [List.length_nil, Nat.zero_add, List.length_reverse]
    omega
  · rw [span_translate_len]
    simp only [List.length_nil, Nat.zero_add, List.length_reverse]
    have hrle := (List.subperm_of_subset hnd hsub).length_le
    have hids_len : (get_hypergraph inputs output size_dict).nodeIds.length =
        inputs.length := by
      have hid : (get_hypergraph inputs output size_dict).nodeIds =
          List.range inputs.length := by
        show inputs.enum.map Prod.fst = _
        exact List.enum_map_fst inputs
      rw [hid, List.length_range]
    omega

end SpanInvariant

section BestTrackingLemmas

/-- The best score never increases when one more trial is assessed. -/
theorem bestScore_assess_le (st : SearchState) (t : RTrial) :
    bestScoreOf (assess_trial st t).best ≤ bestScoreOf st.best := by
  unfold assess_trial
  by_cases h : (t.score : WithTop ℚ) < bestScoreOf st.best
  · simp only [h, if_pos]
    exact le_of_lt h
  · simp only [h, if_neg, not_false_iff]
    exact le_refl _

theorem best_score_seq_chain (ts : List RTrial) :
    ∀ st : SearchState, List.Chain' (fun a b => b ≤ a) (best_score_seq st ts) := by
  induction ts with
  | nil => intro st; exact List.chain'_nil
  | cons t rest ih =>
    intro st
    rw [best_score_seq]
    rcases rest with _ | ⟨t2, rest2⟩
    · exact List.chain'_singleton _
    · rw [best_score_seq]
      refine List.Chain'.cons ?_ ?_
      · exact bestScore_assess_le _ _
      · have := ih (assess_trial st t)
        rwa [best_score_seq] at this

end BestTrackingLemmas

section ConcreteInstances

/-- A concrete real-valued environment for running the greedy models: the
identity-flavored log stands in for `math.log2`/`math.log` and the jitter
stream is constant zero (the temperature is zero in every concrete run, so
the jitter value is multiplied away exactly as in the source). -/
def cEnv : GCEnv := ⟨fun n => (n : ℚ), fun q => q, fun _ => 0⟩

/-- A trivial stand-in for the external `ssa_greedy_optimize` oracle (never
reached in the concrete runs below, whose seed regions have at most two
members). -/
def cOracle : List (List ℕ) → List ℕ → (ℕ → ℕ) → List (ℕ × ℕ) := fun _ _ _ => []

/-- `GreedySpan()` with its default parameters (`start='max'`,
`score_perm='CNDLTI'`, `distance_steal='abs'`, ...). -/
def cSpanDefault : GreedySpan :=
  ⟨.smax, 1, 1, -1, 0, true, 0, ['C', 'N', 'D', 'L', 'T', 'I'], 1, .sabs⟩

/-- `GreedySpan(distance_steal='rel')`, otherwise default. -/
def cSpanRel : GreedySpan :=
  ⟨.smax, 1, 1, -1, 0, true, 0, ['C', 'N', 'D', 'L', 'T', 'I'], 1, .srel⟩

/-- A `GreedyCompressed` instance whose every configurable combine rule is
`'max'` (in particular `centrality_combine='max'`). -/
def cGC : GreedyCompressed := ⟨4, 1, 0, 0, .cmax, 0, .cmax, 0, .cmax, .cmax, 0, []⟩

/-- The two-operand hypergraph of `inputs=[[0],[0]], output=[]` with every
dimension of size 2. -/
def cHG : Hypergraph := get_hypergraph [[0], [0]] [] (fun _ => 2)

/-- A mid-run `GreedyCompressed` state over `cHG` whose accumulators carry
`1` for node 0 and `2` for node 1. -/
def cGCState : GCState :=
  ⟨cHG, [], (fun i => if i = 1 then 2 else 1), (fun i => if i = 1 then 2 else 1), 0, []⟩

/-- Concrete seed distances for the steal counterexample: the newly
available region node 0 is far from the seed (10), the current target 1 and
the candidate 2 are both at distance 3. -/
def cDist : ℕ → ℚ := fun i => if i = 0 then 10 else 3

/-- A frontier state in which candidate node 2 currently targets region
node 1. -/
def cSpanSt : SpanState := ⟨[0], [2], [(2, 1)], fun _ => 0, [], 0⟩

end ConcreteInstances

section ClaimTheorems

/-- C1 counterexample: `GreedySpan.ssa_path` has no disconnected-graph
fallback.  On the 4-operand problem `inputs=[[0],[0],[1],[1]], output=[]`
(two connected components) with default parameters, the span grows from the
seed component only and the produced SSA path has a single merge step
instead of `n-1 = 3`: operands 2 and 3 are never merged into the result. -/
theorem C1_counterexample :
    GreedySpan.ssa_path cSpanDefault cEnv cOracle [[0], [0], [1], [1]] [] (fun _ => 2) =
      .ok [(1, 0)] ∧ ([(1, 0)] : List (ℕ × ℕ)).length ≠ 4 - 1 :=
  ⟨by decide, by decide⟩

/-- C1 (amended): for any problem with at least two operands,
`GreedyCompressed.ssa_path` succeeds (with an explicit first-two-nodes
fallback when no scored candidate is live) and its path has exactly `n-1`
steps, the last being the multi-way closure of the two remaining nodes, with
every operand covered by some step.  `GreedySpan.ssa_path`, by contrast, has
no disconnected-graph fallback: whenever its seed region is sane and the
seed-ordering oracle returns a valid path over it, the span succeeds but
produces exactly one merge step per final-region node beyond the first — at
most, and on disconnected problems strictly fewer than, `n-1` steps. -/
theorem C1_amended_path_counts :
    (∀ (o : GreedyCompressed) (env : GCEnv) (inputs : List (List ℕ))
      (output : List ℕ) (size_dict : ℕ → ℕ), 2 ≤ inputs.length →
      ∃ path, GreedyCompressed.ssa_path o env inputs output size_dict = .ok path ∧
        path.length = inputs.length - 1 ∧
        (∃ last, path.getLast? = some last ∧ last.length = 2) ∧
        (∀ i < inputs.length, ∃ e ∈ path, i ∈ e)) ∧
    (∀ (o : GreedySpan) (env : GCEnv)
      (oracle : List (List ℕ) → List ℕ → (ℕ → ℕ) → List (ℕ × ℕ))
      (inputs : List (List ℕ)) (output : List ℕ) (size_dict : ℕ → ℕ),
      spanRegion0 o inputs output size_dict ≠ [] →
      (spanRegion0 o inputs output size_dict).Nodup →
      (∀ i ∈ spanRegion0 o inputs output size_dict,
        i ∈ (get_hypergraph inputs output size_dict).nodeIds) →
      ((spanRegion0 o inputs output size_dict).length = 1 ∨
        (spanRegion0 o inputs output size_dict).length = 2 ∨
        (validOraclePath (spanRegion0 o inputs output size_dict).length
            (oracle ((spanRegion0 o inputs output size_dict).map
              (fun i => inputs.getD i [])) output size_dict) = true ∧
          (oracle ((spanRegion0 o inputs output size_dict).map
            (fun i => inputs.getD i [])) output size_dict).length =
            (spanRegion0 o inputs output size_dict).length - 1)) →
      ∃ stF path, GreedySpan.run o env oracle inputs output size_dict = .ok stF ∧
        GreedySpan.ssa_path o env oracle inputs output size_dict = .ok path ∧
        path.length + 1 = stF.region.length ∧
        path.length + 1 ≤ inputs.length) :=
  ⟨fun o env inputs output size_dict hn =>
    gc_ssa_path_spec o env inputs output size_dict hn,
   fun o env oracle inputs output size_dict hne hnd hsub hseed =>
    span_ssa_path_spec o env oracle inputs output size_dict hne hnd hsub hseed⟩

/-- C3 counterexample: under `distance_steal='rel'` the merge target of an
already-assigned candidate is reassigned when the absolute distance gap
strictly INCREASES (`new_diff > old_diff`), not when reassignment minimizes
the gap.  Concretely, candidate 2 (gap 0 to its current target 1) is stolen
by surface node 0 although that raises the gap to 7. -/
theorem C3_counterexample :
    alistLookup (GreedySpan.check_candidate cSpanRel cEnv cHG cDist cSpanSt 0 2).merges 2 =
      some 0 ∧ |cDist 1 - cDist 2| < |cDist 0 - cDist 2| := by
  constructor
  · norm_num [GreedySpan.check_candidate, alistLookup, alistStore, cSpanRel, cDist, cSpanSt,
      Function.update, cEnv, cHG]
  · norm_num [cDist]

/-- C3 amended: in `_check_candidate`, for a non-region candidate that
already has a merge target, `'abs'` reassigns the target to the newly
available region node exactly when that node's seed-distance is strictly
smaller than the current target's; `'rel'` reassigns exactly when the new
absolute distance gap is strictly larger than the current one (the code
maximizes the gap, not minimizes it). -/
theorem C3_amended_steal (o : GreedySpan) (env : GCEnv) (hg : Hypergraph)
    (distances : ℕ → ℚ) (st : SpanState) (i_surface i_neighbor i_current : ℕ)
    (hreg : i_neighbor ∉ st.region)
    (hcur : alistLookup st.merges i_neighbor = some i_current) :
    (o.distance_steal = .sabs →
      alistLookup (o.check_candidate env hg distances st i_surface i_neighbor).merges
          i_neighbor =
        some (if distances i_surface < distances i_current then i_surface else i_current)) ∧
    (o.distance_steal = .srel →
      alistLookup (o.check_candidate env hg distances st i_surface i_neighbor).merges
          i_neighbor =
        some (if |distances i_current - distances i_neighbor| <
            |distances i_surface - distances i_neighbor| then i_surface
          else i_current)) := by
  constructor
  · intro hs
    unfold GreedySpan.check_candidate
    rw [if_neg hreg, hcur, hs]
    by_cases hd : distances i_surface < distances i_current
    · cases hb : o.connectivity_weight_bonds <;>
        simp [hd, hb, alistLookup_alistStore_self]
    · cases hb : o.connectivity_weight_bonds <;>
        simp [hd, hb, hcur]
  · intro hs
    unfold GreedySpan.check_candidate
    rw [if_neg hreg, hcur, hs]
    by_cases hd : |distances i_current - distances i_neighbor| <
        |distances i_surface - distances i_neighbor|
    · cases hb : o.connectivity_weight_bonds <;>
        simp [hd, hb, alistLookup_alistStore_self]
    · cases hb : o.connectivity_weight_bonds <;>
        simp [hd, hb, hcur]

/-- C4 counterexample: after a contraction the new node's subgraph-size
accumulator is always the SUM of the inputs' accumulators, regardless of
configuration.  With every configurable combine rule set to `'max'`
(`cGC`), contracting nodes with accumulators 1 and 2 yields `sgsizes = 3`
(the sum), while the configured rule would give `max 1 2 = 2`; the
centrality accumulator does honor `centrality_combine='max'`. -/
theorem C4_counterexample :
    (GreedyCompressed.contractStep cGC cEnv cGCState 0 1).map
        (fun s => (s.sgsizes 2, s.sgcents 2)) = .ok ((3 : ℚ), (2 : ℚ)) ∧
    binary_combine cGC.score_subgraph (1 : ℚ) 2 = 2 ∧
    binary_combine cGC.centrality_combine (1 : ℚ) 2 = 2 ∧ ((3 : ℚ) ≠ 2) := by
  refine ⟨?_, ?_, ?_, by norm_num⟩
  · norm_num [GreedyCompressed.contractStep, Hypergraph.contract, Hypergraph.has_node,
      Hypergraph.nodeIds, Hypergraph.contractInds, Hypergraph.get_node, alistLookup,
      Hypergraph.compress, Hypergraph.get_num_nodes, gcPushPairs, Hypergraph.neighbor_edges,
      Hypergraph.edgeNodes, Function.update, cGC, cHG, cGCState, cEnv, get_hypergraph,
      binary_combine, max_def, Except.map]
  · norm_num [binary_combine, cGC, max_def]
  · norm_num [binary_combine, cGC, max_def]

/-- C4 amended: after every contraction of `i1` and `i2` into the fresh node
`i12`, the subgraph-size accumulator of `i12` is the sum of the two input
accumulators (hard-wired `+`, not configurable), while the centrality
accumulator of `i12` is combined with the configurable
`centrality_combine` rule. -/
theorem C4_amended_combine (o : GreedyCompressed) (env : GCEnv) (st : GCState) (i1 i2 : ℕ)
    (hne : i1 ≠ i2) (h1 : st.hg.has_node i1 = true) (h2 : st.hg.has_node i2 = true) :
    ∃ st', GreedyCompressed.contractStep o env st i1 i2 = .ok st' ∧
      st'.sgsizes st.hg.fresh = st.sgsizes i1 + st.sgsizes i2 ∧
      st'.sgcents st.hg.fresh =
        binary_combine o.centrality_combine (st.sgcents i1) (st.sgcents i2) := by
  obtain ⟨st', hok, hs, hc, -, -, -⟩ :=
    GreedyCompressed.contractStep_ok o env st i1 i2 hne h1 h2
  exact ⟨st', hok, hs, hc⟩

/-- C2 counterexample: `SlicedTrialFn.__call__` does not clear the tree's
`already_optimized` memoization set.  With a slice mutation that leaves the
tree unchanged and an inner trial whose tree carries the memo entry `7`, the
wrapper returns a tree whose `already_optimized` is still `[7]`, not the
empty set the claim requires. -/
theorem C2_counterexample :
    (SlicedTrialFn.call ⟨fun _ : Unit => find_tree ⟨1, 1, 1, [7]⟩, id⟩ ()).tree.already_optimized
      = [7] ∧ ([7] : List ℕ) ≠ [] :=
  ⟨rfl, by decide⟩

/-- C2 amended: all three wrappers refresh the trial's `flops`/`write`/`size`
from the mutated tree, but only `ReconfTrialFn` and `SlicedReconfTrialFn`
clear the tree's `already_optimized` set; `SlicedTrialFn` leaves
`already_optimized` exactly as the external `slice_` mutation left it. -/
theorem C2_amended_wrappers {α : Type} (ws : SlicedTrialFn α) (wr : ReconfTrialFn α)
    (wsr : SlicedReconfTrialFn α) (x y z : α) :
    ((ws.call x).tree = ws.slice_op (ws.trial_fn x).tree ∧
      (ws.call x).flops = (ws.call x).tree.total_flops ∧
      (ws.call x).write = (ws.call x).tree.total_write ∧
      (ws.call x).size = (ws.call x).tree.max_size ∧
      (ws.call x).tree.already_optimized =
        (ws.slice_op (ws.trial_fn x).tree).already_optimized) ∧
    ((wr.call y).tree.already_optimized = [] ∧
      (wr.call y).flops = (if wr.forested then wr.reconf_forest_op (wr.trial_fn y).tree
        else wr.reconf_op (wr.trial_fn y).tree).total_flops ∧
      (wr.call y).write = (if wr.forested then wr.reconf_forest_op (wr.trial_fn y).tree
        else wr.reconf_op (wr.trial_fn y).tree).total_write ∧
      (wr.call y).size = (if wr.forested then wr.reconf_forest_op (wr.trial_fn y).tree
        else wr.reconf_op (wr.trial_fn y).tree).max_size) ∧
    ((wsr.call z).tree.already_optimized = [] ∧
      (wsr.call z).flops = (if wsr.forested then wsr.slice_reconf_forest_op (wsr.trial_fn z).tree
        else wsr.slice_reconf_op (wsr.trial_fn z).tree).total_flops ∧
      (wsr.call z).write = (if wsr.forested then wsr.slice_reconf_forest_op (wsr.trial_fn z).tree
        else wsr.slice_reconf_op (wsr.trial_fn z).tree).total_write ∧
      (wsr.call z).size = (if wsr.forested then wsr.slice_reconf_forest_op (wsr.trial_fn z).tree
        else wsr.slice_reconf_op (wsr.trial_fn z).tree).max_size) :=
  ⟨⟨rfl, rfl, rfl, rfl, rfl⟩, ⟨rfl, rfl, rfl, rfl⟩, ⟨rfl, rfl, rfl, rfl⟩⟩

/-- C5: in `HyperOptimizer._search` the best record is replaced by a trial
exactly when the trial's score is strictly lower than the current best's
score, a tie keeps the earlier best, and hence the sequence of best scores
over trial indices is non-increasing. -/
theorem C5_best_tracking :
    (∀ (st : SearchState) (t : RTrial),
      (assess_trial st t).best ≠ st.best ↔ (t.score : WithTop ℚ) < bestScoreOf st.best) ∧
    (∀ (st : SearchState) (t : RTrial),
      (t.score : WithTop ℚ) = bestScoreOf st.best → (assess_trial st t).best = st.best) ∧
    (∀ (st : SearchState) (ts : List RTrial),
      List.Chain' (fun a b => b ≤ a) (best_score_seq st ts)) := by
  refine ⟨?_, ?_, ?_⟩
  · intro st t
    unfold assess_trial
    by_cases h : (t.score : WithTop ℚ) < bestScoreOf st.best
    · simp only [h, if_true, ne_eq, iff_true]
      intro hc
      rw [← hc] at h
      exact lt_irrefl ((t.score : WithTop ℚ)) h
    · simp only [h, if_false, ne_eq, iff_false, not_not]
  · intro st t htie
    unfold assess_trial
    simp only [htie, lt_self_iff_false, if_false]
  · intro st ts
    exact best_score_seq_chain ts st

/-- C6: with `overwrite` unset, a second `__call__` on a problem whose
hash-mode-'a' canonicalization equals that of an earlier solved problem
returns the identical cached path and leaves the optimizer state (including
the `_compute_path` run counter) untouched; with `overwrite` set, a fresh
search always runs, its result overwrites the cache entry and the run
counter advances. -/
theorem C6_cache_semantics :
    (∀ (compute : List (List ℕ) → List ℕ → List (ℕ × PyNum) → ℕ → PathResult)
      (st : ReusableState) (inputs1 : List (List ℕ)) (output1 : List ℕ)
      (sd1 : List (ℕ × PyNum)) (inputs2 : List (List ℕ)) (output2 : List ℕ)
      (sd2 : List (ℕ × PyNum)) (st1 : ReusableState) (p1 : List (ℕ × ℕ)),
      st.overwrite = false → st.hash_method = .a →
      ReusableHyperOptimizer.call compute st inputs1 output1 sd1 = .ok (st1, p1) →
      ReusableHyperOptimizer.hash_args .a inputs2 output2 sd2 =
        ReusableHyperOptimizer.hash_args .a inputs1 output1 sd1 →
      ReusableHyperOptimizer.call compute st1 inputs2 output2 sd2 = .ok (st1, p1)) ∧
    (∀ (compute : List (List ℕ) → List ℕ → List (ℕ × PyNum) → ℕ → PathResult)
      (st : ReusableState) (inputs : List (List ℕ)) (output : List ℕ)
      (sd : List (ℕ × PyNum)) (h : HKey),
      st.overwrite = true →
      ReusableHyperOptimizer.hash_args st.hash_method inputs output sd = .ok h →
      ReusableHyperOptimizer.call compute st inputs output sd =
        .ok (⟨cacheStore st.cache h (compute inputs output sd st.nruns), true,
          st.hash_method, st.nruns + 1⟩, (compute inputs output sd st.nruns).path)) := by
  constructor
  · intro compute st inputs1 output1 sd1 inputs2 output2 sd2 st1 p1 hov hmeth hcall hhash
    cases hh1 : ReusableHyperOptimizer.hash_args st.hash_method inputs1 output1 sd1 with
    | error e =>
      rw [ReusableHyperOptimizer.call, ReusableHyperOptimizer.hash_and_query, hh1] at hcall
      exact absurd hcall (by simp)
    | ok h1 =>
      have hh1a := hh1
      rw [hmeth] at hh1a
      rw [ReusableHyperOptimizer.call_eq compute st inputs1 output1 sd1 h1 hh1, hov] at hcall
      cases hmiss : cacheLookup st.cache h1 with
      | none =>
        rw [hmiss, cacheLookup_cacheStore_self] at hcall
        have hcall2 : Except.ok
            ((⟨cacheStore st.cache h1 (compute inputs1 output1 sd1 st.nruns), false,
              st.hash_method, st.nruns + 1⟩ : ReusableState),
              (compute inputs1 output1 sd1 st.nruns).path) =
            (Except.ok (st1, p1) : Except String (ReusableState × List (ℕ × ℕ))) := hcall
        cases hcall2
        have hh2 : ReusableHyperOptimizer.hash_args
            ((⟨cacheStore st.cache h1 (compute inputs1 output1 sd1 st.nruns), false,
              st.hash_method, st.nruns + 1⟩ : ReusableState)).hash_method
            inputs2 output2 sd2 = .ok h1 := by
          show ReusableHyperOptimizer.hash_args st.hash_method inputs2 output2 sd2 = .ok h1
          rw [hmeth, hhash]
          exact hh1a
        rw [ReusableHyperOptimizer.call_eq compute _ inputs2 output2 sd2 h1 hh2]
        have e : cacheLookup
            ((⟨cacheStore st.cache h1 (compute inputs1 output1 sd1 st.nruns), false,
              st.hash_method, st.nruns + 1⟩ : ReusableState)).cache h1 =
            some (compute inputs1 output1 sd1 st.nruns) :=
          cacheLookup_cacheStore_self st.cache h1 _
        rw [e]
        rfl
      | some r =>
        rw [hmiss] at hcall
        have hcall2 : (Except.ok (st, r.path) :
            Except String (ReusableState × List (ℕ × ℕ))) = Except.ok (st1, p1) := hcall
        cases hcall2
        have hh2 : ReusableHyperOptimizer.hash_args st.hash_method inputs2 output2 sd2 =
            .ok h1 := by
          rw [hmeth, hhash]
          exact hh1a
        rw [ReusableHyperOptimizer.call_eq compute st inputs2 output2 sd2 h1 hh2, hov, hmiss]
        rfl
  · intro compute st inputs output sd h hov hh
    rw [ReusableHyperOptimizer.call_eq compute st inputs output sd h hh, hov,
      cacheLookup_cacheStore_self]
    rfl

/-- C7 counterexample: hash mode 'b' is not invariant under a consistent
bijective relabeling of index labels.  Relabeling the single index `0` of
`inputs=[[0],[0]], output=[], size_dict={0: 2}` to `1` (an injective
relabeling preserving the size of the relabeled index) changes the hash,
because `_hash_args` also pickles `sortedtuple(size_dict.items())`, whose
entries contain the label names themselves. -/
theorem C7_counterexample :
    Function.Injective (fun n : ℕ => n + 1) ∧
    ReusableHyperOptimizer.hash_args .b (relabelInputs (fun n => n + 1) [[0], [0]])
        (List.map (fun n => n + 1) []) (relabelSizes (fun n => n + 1) [(0, PyNum.int 2)]) ≠
      ReusableHyperOptimizer.hash_args .b [[0], [0]] [] [(0, PyNum.int 2)] :=
  ⟨fun _ _ hab => Nat.succ_injective hab, by decide⟩

/-- C7 amended: for problems related by a consistent injective relabeling of
index labels, mode-'b' hashing produces the same canonical edge structure,
and the hashes are equal exactly when the relabeling additionally preserves
the multiset of `(label, size)` items of `size_dict` (e.g. a size-preserving
permutation of the same label set); the equal-items condition is stated as a
hypothesis here. -/
theorem C7_amended_hashB (π : ℕ → ℕ) (inputs : List (List ℕ)) (output : List ℕ)
    (sd : List (ℕ × PyNum)) (hπ : Function.Injective π) (hne : sd ≠ [])
    (hsz : ((relabelSizes π sd : List (ℕ × PyNum)) : Multiset (ℕ × PyNum)) =
      ((sd : List (ℕ × PyNum)) : Multiset (ℕ × PyNum))) :
    ReusableHyperOptimizer.hash_args .b (relabelInputs π inputs) (output.map π)
        (relabelSizes π sd) =
      ReusableHyperOptimizer.hash_args .b inputs output sd := by
  cases sd with
  | nil => exact absurd rfl hne
  | cons f rest =>
    have hcoerce : ((coerceSizes (relabelSizes π (f :: rest)) : List (ℕ × PyNum)) :
        Multiset (ℕ × PyNum)) = ((coerceSizes (f :: rest) : List (ℕ × PyNum)) :
        Multiset (ℕ × PyNum)) := by
      unfold coerceSizes
      rw [← Multiset.map_coe, ← Multiset.map_coe, hsz]
    show ReusableHyperOptimizer.hash_args .b (relabelInputs π inputs) (output.map π)
        ((π f.1, f.2) :: relabelSizes π rest) = _
    rw [hash_args_cons_b, hash_args_cons_b, canonicalEdges_relabel π hπ]
    by_cases hf : f.2.isInt = true
    · have hfl : ((π f.1, f.2) : ℕ × PyNum).2.isInt = true := hf
      rw [if_pos hfl, if_pos hf]
      exact congrArg (fun s => Except.ok (HKey.modeB (canonicalEdges inputs output) s)) hsz
    · have hfl : ¬ (((π f.1, f.2) : ℕ × PyNum).2.isInt = true) := hf
      rw [if_neg hfl, if_neg hf]
      exact congrArg (fun s => Except.ok (HKey.modeB (canonicalEdges inputs output) s)) hcoerce

/-- C8 (code bug): `HyperOptimizer.__init__` documents that `minimize` may be
a user-supplied callable, and the `minimize` property setter accepts one, but
the very next line `self.compressed = ('compressed' in minimize)` applies the
`in` operator to the callable and raises `TypeError`, so construction with a
callable fails before any trial can be scored. -/
theorem C8_callable_minimize_raises :
    HyperOptimizer.init_minimize (fun _ => fun _ => 0) (.fn (fun _ => 1)) =
      .error "TypeError" := rfl

/-- C9 counterexample: `_hash_args` inspects only the first value of
`size_dict` to decide integer coercion, so a mixture whose first value is a
native int but whose later values are numerically-equal foreign integers
hashes differently from the all-native version. -/
theorem C9_counterexample :
    ([(0, PyNum.int 2), (1, PyNum.npint 3)].map (fun kv : ℕ × PyNum => (kv.1, kv.2.val)) =
      [(0, PyNum.int 2), (1, PyNum.int 3)].map (fun kv : ℕ × PyNum => (kv.1, kv.2.val))) ∧
    ReusableHyperOptimizer.hash_args .a [[0, 1]] [] [(0, PyNum.int 2), (1, PyNum.npint 3)] ≠
      ReusableHyperOptimizer.hash_args .a [[0, 1]] [] [(0, PyNum.int 2), (1, PyNum.int 3)] :=
  ⟨by decide, by decide⟩

/-- C9 amended: `_hash_args` hashes numerically-equal size dictionaries
identically (in either hash mode) provided the first-value coercion guard is
sound for each dictionary — i.e. all values are native ints, or the first
value is foreign so that every value gets coerced.  A mixture that starts
with a native int escapes the guard (see the counterexample). -/
theorem C9_amended_coercion (m : HashMethod) (inputs : List (List ℕ)) (output : List ℕ)
    (sd1 sd2 : List (ℕ × PyNum)) (h1 : sd1 ≠ []) (h2 : sd2 ≠ [])
    (hval : sd1.map (fun kv => (kv.1, kv.2.val)) = sd2.map (fun kv => (kv.1, kv.2.val)))
    (hs1 : coercionSound sd1 = true) (hs2 : coercionSound sd2 = true) :
    ReusableHyperOptimizer.hash_args m inputs output sd1 =
      ReusableHyperOptimizer.hash_args m inputs output sd2 := by
  rw [hash_args_coerce m inputs output sd1 h1 hs1, hash_args_coerce m inputs output sd2 h2 hs2,
    coerceSizes_eq_map_val sd1, coerceSizes_eq_map_val sd2, hval]

/-- C10: `_hash_args` (and hence `__call__`, which begins by hashing)
unconditionally evaluates the first value of `size_dict`, raising
`StopIteration` on an empty dictionary before any hashing or cache access;
a non-empty `size_dict` guarantees the hash succeeds. -/
theorem C10_empty_size_dict (m : HashMethod) (inputs : List (List ℕ)) (output : List ℕ)
    (sd : List (ℕ × PyNum))
    (compute : List (List ℕ) → List ℕ → List (ℕ × PyNum) → ℕ → PathResult)
    (st : ReusableState) :
    (sd = [] → ReusableHyperOptimizer.hash_args m inputs output sd = .error "StopIteration" ∧
      ReusableHyperOptimizer.call compute st inputs output sd = .error "StopIteration") ∧
    (sd ≠ [] → ∃ k, ReusableHyperOptimizer.hash_args m inputs output sd = .ok k) := by
  constructor
  · rintro rfl
    exact ⟨rfl, rfl⟩
  · intro hne
    cases sd with
    | nil => exact absurd rfl hne
    | cons f rest =>
      cases m
      · exact ⟨_, rfl⟩
      · exact ⟨_, rfl⟩

end ClaimTheorems

section ClaimWitnesses

/-- Witness data for C6: a compute oracle whose result depends on the run
counter, so a second run would be observable. -/
def c6compute : List (List ℕ) → List ℕ → List (ℕ × PyNum) → ℕ → PathResult :=
  fun _ _ _ k => ⟨[(k, k)], []⟩

/-- The mode-'a' hash key of the concrete witness problem for C6. -/
def c6key : HKey := .modeA [({0} : Multiset ℕ)] (0 : Multiset ℕ) ({(0, PyNum.int 2)})

/-- The optimizer state after the first C6 witness call. -/
def c6st1 : ReusableState := ⟨[(c6key, ⟨[(0, 0)], []⟩)], false, .a, 1⟩

/-- Witness for C6: on the concrete problem `inputs=[[0]], output=[],
size_dict={0: 2}`, after a first solved call the second call returns the
same cached path with the state (and run counter) unchanged. -/
theorem C6_witness :
    ReusableHyperOptimizer.call c6compute c6st1 [[0]] [] [(0, PyNum.int 2)] =
      .ok (c6st1, [(0, 0)]) := by
  have h1 : ReusableHyperOptimizer.call c6compute ⟨[], false, .a, 0⟩ [[0]] [] [(0, PyNum.int 2)] =
      .ok (c6st1, [(0, 0)]) := by decide
  exact C6_cache_semantics.1 c6compute ⟨[], false, .a, 0⟩ [[0]] [] [(0, PyNum.int 2)]
    [[0]] [] [(0, PyNum.int 2)] c6st1 [(0, 0)] rfl rfl h1 rfl

/-- Witness for C3 amended: applying the steal characterization to the
concrete `'rel'` frontier state. -/
theorem C3_witness :
    alistLookup (GreedySpan.check_candidate cSpanRel cEnv cHG cDist cSpanSt 0 2).merges 2 =
      some (if |cDist 1 - cDist 2| < |cDist 0 - cDist 2| then 0 else 1) :=
  (C3_amended_steal cSpanRel cEnv cHG cDist cSpanSt 0 2 1 (by decide) (by decide)).2 rfl

/-- Witness for C4 amended: applying the accumulator-merge characterization
to the concrete all-`'max'` instance. -/
theorem C4_witness :
    ∃ st', GreedyCompressed.contractStep cGC cEnv cGCState 0 1 = .ok st' ∧
      st'.sgsizes cGCState.hg.fresh = cGCState.sgsizes 0 + cGCState.sgsizes 1 ∧
      st'.sgcents cGCState.hg.fresh =
        binary_combine cGC.centrality_combine (cGCState.sgcents 0) (cGCState.sgcents 1) :=
  C4_amended_combine cGC cEnv cGCState 0 1 (by decide) (by decide) (by decide)

/-- Witness for C1 amended: the two-operand problem `[[0], [0]]` with the
concrete all-`'max'` compressed instance and the default span instance; the
compressed path is the single closure step, the span path's step count is
one less than its final region size. -/
theorem C1_witness :
    (2 ≤ ([[0], [0]] : List (List ℕ)).length ∧
      ∃ path, GreedyCompressed.ssa_path cGC cEnv [[0], [0]] [] (fun _ => 2) = .ok path ∧
        path.length = ([[0], [0]] : List (List ℕ)).length - 1 ∧
        (∃ last, path.getLast? = some last ∧ last.length = 2) ∧
        (∀ i < ([[0], [0]] : List (List ℕ)).length, ∃ e ∈ path, i ∈ e)) ∧
    (spanRegion0 cSpanDefault [[0], [0]] [] (fun _ => 2) ≠ [] ∧
      ∃ stF path,
        GreedySpan.run cSpanDefault cEnv cOracle [[0], [0]] [] (fun _ => 2) = .ok stF ∧
        GreedySpan.ssa_path cSpanDefault cEnv cOracle [[0], [0]] [] (fun _ => 2) =
          .ok path ∧
        path.length + 1 = stF.region.length ∧
        path.length + 1 ≤ ([[0], [0]] : List (List ℕ)).length) :=
  ⟨⟨by decide, C1_amended_path_counts.1 cGC cEnv [[0], [0]] [] (fun _ => 2) (by decide)⟩,
   ⟨by decide,
    C1_amended_path_counts.2 cSpanDefault cEnv cOracle [[0], [0]] [] (fun _ => 2)
      (by decide) (by decide) (by decide) (by decide)⟩⟩

/-- The label swap used in the C7 witness. -/
def c7perm : ℕ → ℕ := fun n => if n = 0 then 1 else if n = 1 then 0 else n

/-- Witness for C7 amended: swapping the two equal-sized labels of a concrete
problem preserves the sorted size items, so the mode-'b' hashes agree. -/
theorem C7_witness :
    ReusableHyperOptimizer.hash_args .b (relabelInputs c7perm [[0, 1], [1]])
        ([0].map c7perm) (relabelSizes c7perm [(0, PyNum.int 2), (1, PyNum.int 2)]) =
      ReusableHyperOptimizer.hash_args .b [[0, 1], [1]] [0] [(0, PyNum.int 2), (1, PyNum.int 2)] := by
  refine C7_amended_hashB c7perm [[0, 1], [1]] [0] [(0, PyNum.int 2), (1, PyNum.int 2)] ?_
    (List.cons_ne_nil _ _) (by decide)
  intro a b hab
  simp only [c7perm] at hab
  split_ifs at hab <;> omega

/-- Witness for C9 amended: an all-foreign size dict hashes like the
all-native one, since the coercion guard fires on its first value. -/
theorem C9_witness :
    ReusableHyperOptimizer.hash_args .a [[0]] [] [(0, PyNum.npint 2)] =
      ReusableHyperOptimizer.hash_args .a [[0]] [] [(0, PyNum.int 2)] :=
  C9_amended_coercion .a [[0]] [] [(0, PyNum.npint 2)] [(0, PyNum.int 2)]
    (List.cons_ne_nil _ _) (List.cons_ne_nil _ _) (by decide) (by decide) (by decide)

/-- Witness for C10: the empty size dictionary raises `StopIteration`, a
non-empty one hashes successfully. -/
theorem C10_witness :
    (ReusableHyperOptimizer.hash_args .a [[0]] [] [] = .error "StopIteration") ∧
    (∃ k, ReusableHyperOptimizer.hash_args .a [[0]] [] [(0, PyNum.int 2)] = .ok k) :=
  ⟨((C10_empty_size_dict .a [[0]] [] [] (fun _ _ _ _ => ⟨[], []⟩) ⟨[], false, .a, 0⟩).1 rfl).1,
    (C10_empty_size_dict .a [[0]] [] [(0, PyNum.int 2)] (fun _ _ _ _ => ⟨[], []⟩)
      ⟨[], false, .a, 0⟩).2 (List.cons_ne_nil _ _)⟩

end ClaimWitnesses

end Cotengra
